import Mathlib

/-!
A verification development for the generic database command interpreter in
`lib/db-ctl-base.c`.  The C code is shallowly embedded: C strings become
`List Char` (never containing the terminating NUL), unsigned integers become
`Nat` (`UINT_MAX = 2^32 - 1`), fallible code returns `Except` or pairs an
optional error with its out-parameters, and the handful of externally supplied
primitives (the ovsdb datum/token helpers, which live outside this repository)
are modelled from the specification's description of them, each marked with a
`Modelled from the spec:` doc comment.
-/

namespace DbCtl

/-- C strings, without the terminating NUL (a C string cannot contain NUL). -/
abbrev Str := List Char

/-- Convert a Lean string literal to the embedded C string type. -/
def strL (s : String) : Str := s.data

/-- `UINT_MAX` on the (typical) platforms the C code targets. -/
def UINT_MAX : Nat := 4294967295

/-- ASCII `tolower` as the C locale applies it to a byte of a name. -/
def tolowerC (c : Char) : Char :=
  if 'A' ≤ c ∧ c ≤ 'Z' then Char.ofNat (c.toNat + 32) else c

/-- `to_lower_and_underscores` from db-ctl-base.c: `-` maps to `_`, letters are
lowercased. -/
def to_lower_and_underscores (c : Char) : Char :=
  if c = '-' then '_' else tolowerC c

/-- Normalization of a whole name, character by character. -/
def normName (s : Str) : Str := s.map to_lower_and_underscores

/-- The scoring loop of `score_partial_match`: walks both strings while the
normalized characters agree, counting matches in `score`.  Reaching the end of
`name` with the comparison still succeeding means the (normalized) strings were
equal, which yields `UINT_MAX - 1`; a mismatch while `s` still has characters
yields 0; exhausting `s` first yields the count of matched characters. -/
def score_loop : Str → Str → Nat → Nat
  | a :: name, b :: s, score =>
      if to_lower_and_underscores a = to_lower_and_underscores b then
        score_loop name s (score + 1)
      else 0
  | _ :: _, [], score => score
  | [], _ :: _, _ => 0
  | [], [], _ => UINT_MAX - 1

/-- `score_partial_match(name, s)`: byte-exact equality scores `UINT_MAX`,
otherwise the loop above decides the score. -/
def score_partial_match (name s : Str) : Nat :=
  if name = s then UINT_MAX else score_loop name s 0

/-- Errors the interpreter can raise; `ctl_fatal` terminations and returned
error strings are both represented structurally, keeping the data the C
message would carry. -/
inductive CtlErr where
  | ambiguousColumn (table : Str) (column : Str)
  | unknownColumn (table : Str) (column : Str)
  | multipleTables (name : Str)
  | unknownTable (name : Str)
  | multipleRowsMatch (table : Str) (record : Str)
  | noRow (record : Str) (table : Str)
  | badRowId (id : Str)
  | duplicateRowId (id : Str)
  | usedBeforeDefined (id : Str)
  | missingColumnName (arg : Str)
  | tokenError (arg : Str)
  | missingOperator (arg : Str) (allowed : List Str)
  | trailingGarbage (arg : Str) (rest : Str)
  | duplicateOption (opt : Str)
  | missingCommandName
  | unknownCommand (name : Str)
  | noSuchOption (cmd : Str) (opt : Str)
  | missingOptionArg (cmd : Str) (opt : Str)
  | optionNoArg (cmd : Str) (opt : Str)
  | tooFewArgs (cmd : Str) (min : Nat)
  | tooManyArgsOptionNote (cmd : Str) (max : Nat)
  | tooManyArgs (cmd : Str) (max : Nat)
  | cannotApplyClear (column : Str)
  | addOverflow (n : Nat) (max : Nat)
  | removeUnderflow (n : Nat) (min : Nat)
  | datumParseError
deriving DecidableEq, Repr

/-- One step of the best-candidate selection shared by `get_column` and
`get_table`: a strictly greater score takes over, a tie erases the running
best, a lower score changes nothing. -/
def bestStep (q : Str) (st : Option Str × Nat) (name : Str) : Option Str × Nat :=
  if score_partial_match name q > st.2 then (some name, score_partial_match name q)
  else if score_partial_match name q = st.2 then (none, st.2)
  else st

/-- The candidate-selection loop run over a list of names, starting from
`(NULL, 0)` exactly as the C loops do. -/
def bestMatch (names : List Str) (q : Str) : Option Str × Nat :=
  names.foldl (bestStep q) (none, 0)

/-- `get_column`: resolve `q` against the column names of a table.  A surviving
best match is returned; otherwise a non-zero best score means ambiguity and a
zero best score means the name is unknown. -/
def get_column (tableName : Str) (cols : List Str) (q : Str) : Except CtlErr Str :=
  match bestMatch cols q with
  | (some c, _) => .ok c
  | (none, bs) =>
      if bs ≠ 0 then .error (.ambiguousColumn tableName q)
      else .error (.unknownColumn tableName q)

/-- `get_table`: the same selection policy over the registered table names
(`ctl_fatal` on ambiguity or an unknown name becomes an error value). -/
def get_table (tbls : List Str) (q : Str) : Except CtlErr Str :=
  match bestMatch tbls q with
  | (some t, _) => .ok t
  | (none, bs) =>
      if bs ≠ 0 then .error (.multipleTables q)
      else .error (.unknownTable q)

/-- The maximal `score_partial_match` score over a list of candidate names,
computed the way the loop's running `best_score` accumulates. -/
def maxScore (names : List Str) (q : Str) : Nat :=
  names.foldl (fun m n => max m (score_partial_match n q)) 0

/-! ### Symbol table (`create_symbol`, the `--id` handling of `cmd_get`) -/

/-- A symbol (`struct ovsdb_symbol`): a row uuid, whether a `create`/`get --id`
has claimed the name, and whether warnings about it being unreferenced are
suppressed. -/
structure OvsdbSymbol where
  uuid : Nat := 0
  created : Bool := false
  strong_ref : Bool := false
deriving DecidableEq, Repr

/-- The symbol table (`struct ovsdb_symbol_table`), keyed by the user name. -/
structure SymTable where
  symbols : List (Str × OvsdbSymbol) := []
deriving DecidableEq, Repr

/-- `ovsdb_symbol_table_get`. -/
def symtab_get (st : SymTable) (id : Str) : Option OvsdbSymbol :=
  st.symbols.lookup id

/-- Modelled from the spec: `ovsdb_symbol_table_insert` (an external IDL
helper) returns the existing symbol for `id`, or inserts and returns a fresh
one with a provisional uuid and `created = false`. -/
def symtab_insert (st : SymTable) (id : Str) : SymTable × OvsdbSymbol :=
  match st.symbols.lookup id with
  | some s => (st, s)
  | none => ({ symbols := (id, {}) :: st.symbols }, {})

/-- Store `s` as the symbol for `id` (the C code mutates the symbol in
place). -/
def symtab_set (st : SymTable) (id : Str) (s : OvsdbSymbol) : SymTable :=
  { symbols := st.symbols.map (fun p => if p.1 = id then (p.1, s) else p) }

/-- `create_symbol`: fatal unless `id` begins with `@`; fatal if the symbol is
already `created`; otherwise marks it created.  The returned `Bool` is what
the C code stores through `newp`: whether the name did **not** exist in the
table before this call. -/
def create_symbol (st : SymTable) (id : Str) :
    Except CtlErr (SymTable × OvsdbSymbol × Bool) :=
  if id.head? ≠ some '@' then .error (.badRowId id)
  else
    let isNew := (symtab_get st id).isNone
    let (st1, sym) := symtab_insert st id
    if sym.created then .error (.duplicateRowId id)
    else
      let sym1 := { sym with created := true }
      .ok (symtab_set st1 id sym1, sym1, isNew)

/-- The `--id` handling inside `cmd_get`: create the symbol, fatal when it
pre-existed (`"used before it was defined"`), then copy the located row's
uuid into it and mark it strongly referenced. -/
def cmd_get_bind_id (st : SymTable) (id : Str) (rowUuid : Nat) :
    Except CtlErr SymTable := do
  let (st1, sym, isNew) ← create_symbol st id
  if !isNew then .error (.usedBeforeDefined id)
  else .ok (symtab_set st1 id { sym with uuid := rowUuid, strong_ref := true })

/-! ### Datums and the `set`/`add`/`remove`/`clear` write paths -/

/-- The atomic-type tags of `enum ovsdb_atomic_type`. -/
inductive AtomTy where
  | void | integer | real | boolean | string | uuid
deriving DecidableEq, Repr

/-- `struct ovsdb_type`: key and value atomic types and the cardinality
bounds.  A column is a scalar (`n_max = 1`, `value = void`), a set
(`value = void`, `n_max > 1`) or a map (`value ≠ void`). -/
structure OType where
  key : AtomTy
  value : AtomTy := .void
  n_min : Nat := 0
  n_max : Nat := 1
deriving DecidableEq, Repr

/-- Modelled from the spec: a datum is its list of entries, an atom key
(abstracted to `Nat`) with an optional value atom (`none` for sets, and for
the remove-by-key form of `remove`). -/
abbrev Datum := List (Nat × Option Nat)

/-- Modelled from the spec: `ovsdb_datum_union(a, b, type, false)` adds to
`a` every entry of `b` whose key is not already present in `a`. -/
def datum_union (a b : Datum) : Datum :=
  a ++ b.filter (fun p => !(a.any (fun q => q.1 == p.1)))

/-- Modelled from the spec: `ovsdb_datum_subtract` removes from `a` the
entries matched by `b`; an entry of `b` with a value matches on key and
value, an entry without a value (the remove-by-key retry of `cmd_remove`)
matches on the key alone. -/
def datum_subtract (a b : Datum) : Datum :=
  a.filter (fun p => !(b.any (fun q => q.1 == p.1 && (q.2 == none || q.2 == p.2))))

/-- The write step of `cmd_add` after the row, column and per-argument datums
have been resolved: clone the current datum, union every parsed value into
it, and refuse to write when the result exceeds `n_max`. -/
def cmd_add_write (t : OType) (old : Datum) (adds : List Datum) :
    Except CtlErr Datum :=
  let res := adds.foldl datum_union old
  if res.length > t.n_max then .error (.addOverflow res.length t.n_max)
  else .ok res

/-- The write step of `cmd_remove`: subtract every parsed value from the
current datum and refuse to write when the result falls below `n_min`. -/
def cmd_remove_write (t : OType) (old : Datum) (rms : List Datum) :
    Except CtlErr Datum :=
  let res := rms.foldl datum_subtract old
  if res.length < t.n_min then .error (.removeUnderflow res.length t.n_min)
  else .ok res

/-- The write step of `cmd_clear` for one column: refuse columns that may not
be empty, otherwise write the empty datum. -/
def cmd_clear_write (col : Str) (t : OType) : Except CtlErr Datum :=
  if t.n_min > 0 then .error (.cannotApplyClear col)
  else .ok []

/-- Modelled from the spec: `ovsdb_datum_from_string` parses a value string
against a type and enforces the type's structural constraints, including the
cardinality bounds; the text-to-atom part is abstracted away, so the model
receives the parsed entries and applies the bounds check. -/
def datum_from_string_checked (t : OType) (d : Datum) : Except CtlErr Datum :=
  if d.length < t.n_min ∨ d.length > t.n_max then .error .datumParseError
  else .ok d

/-- The whole-column form of `set_column`: the datum parsed against the
column's own type is written unchanged. -/
def set_column_whole (t : OType) (d : Datum) : Except CtlErr Datum :=
  datum_from_string_checked t d

/-- The key form of `set_column` (`COL:KEY=VALUE`): build the single-pair
datum, union the current value into it, and write the result.  There is no
cardinality check on this path. -/
def set_column_key (current : Datum) (key value : Nat) : Datum :=
  datum_union [(key, some value)] current

/-! ### The row resolver (`get_row_by_id` / `get_row`) -/

/-- A cached IDL row: its uuid, and its column data as read through
`ovsdb_idl_get` — string-typed reads and uuid-typed reads kept apart, each
column mapped to the datum's list of key atoms. -/
structure RowC where
  uuid : Nat
  strData : List (Str × List Str) := []
  uuidData : List (Str × List Nat) := []
deriving DecidableEq, Repr

/-- `ovsdb_idl_get(row, column, OVSDB_TYPE_STRING, OVSDB_TYPE_VOID)`. -/
def readStr (r : RowC) (c : Str) : List Str :=
  (r.strData.lookup c).getD []

/-- `ovsdb_idl_get(row, column, OVSDB_TYPE_UUID, OVSDB_TYPE_VOID)`. -/
def readUuid (r : RowC) (c : Str) : List Nat :=
  (r.uuidData.lookup c).getD []

/-- The IDL cache: each table-class name mapped to its rows in the
`first_row`/`next_row` iteration order. -/
structure Idl where
  tables : List (Str × List RowC) := []
deriving DecidableEq, Repr

/-- The rows of one table, in iteration order. -/
def idlRows (idl : Idl) (t : Str) : List RowC :=
  (idl.tables.lookup t).getD []

/-- `ovsdb_idl_get_row_for_uuid`. -/
def get_row_for_uuid (idl : Idl) (t : Str) (u : Nat) : Option RowC :=
  (idlRows idl t).find? (fun r => r.uuid == u)

/-- `struct ctl_row_id`: the table whose rows carry the identifying name
(`none` models the NULL entries of the fixed-size array), the column holding
the name, and the uuid column to dereference on the referrer. -/
structure CtlRowId where
  table : Option Str := none
  name_column : Option Str := none
  uuid_column : Option Str := none
deriving DecidableEq, Repr

/-- `struct ctl_table_class`: the table-class name and its row-id
descriptors in declaration order. -/
structure CtlTableClassM where
  name : Str
  row_ids : List CtlRowId := []
deriving DecidableEq, Repr

/-- The scanning loop of `get_row_by_id` for a descriptor with a
`name_column`: rows whose name datum is the single string `rid` match; a
second match is the fatal `"multiple rows … match"` error (raised with the
**target** table's name, as in the C code). -/
def scan_named_rows (tname nc rid : Str) :
    List RowC → Option RowC → Except CtlErr (Option RowC)
  | [], acc => .ok acc
  | r :: rs, acc =>
      if readStr r nc = [rid] then
        match acc with
        | some _ => .error (.multipleRowsMatch tname rid)
        | none => scan_named_rows tname nc rid rs (some r)
      else scan_named_rows tname nc rid rs acc

/-- The referrer-location half of `get_row_by_id`: a descriptor without a
`name_column` matches only the literal token `"."` and only when its table
holds exactly one row; a descriptor with a `name_column` scans that table's
rows for a unique name match. -/
def row_id_referrer (idl : Idl) (table : CtlTableClassM) (id : CtlRowId)
    (rid : Str) : Except CtlErr (Option RowC) :=
  match id.table with
  | none => .ok none
  | some idTable =>
      match id.name_column with
      | none =>
          if rid ≠ strL "." then .ok none
          else
            match idlRows idl idTable with
            | [r] => .ok (some r)
            | _ => .ok none
      | some nc => scan_named_rows table.name nc rid (idlRows idl idTable) none

/-- The dereferencing half of `get_row_by_id`: with a `uuid_column`, read the
referrer's scalar uuid datum and look the uuid up in the target table (an
empty datum dereferences to nothing); without one, the referrer itself is
the result. -/
def row_id_deref (idl : Idl) (table : CtlTableClassM) (id : CtlRowId)
    (referrer : RowC) : Option RowC :=
  match id.uuid_column with
  | some uc =>
      match readUuid referrer uc with
      | [u] => get_row_for_uuid idl table.name u
      | _ => none
  | none => some referrer

/-- `get_row_by_id`: locate the referrer for one row-id descriptor, then
dereference it. -/
def get_row_by_id (idl : Idl) (table : CtlTableClassM) (id : CtlRowId)
    (rid : Str) : Except CtlErr (Option RowC) := do
  match ← row_id_referrer idl table id rid with
  | none => .ok none
  | some referrer => .ok (row_id_deref idl table id referrer)

/-- The descriptor loop of `get_row`: try each row-id descriptor in
declaration order, stopping at the first that produces a row. -/
def try_row_ids (idl : Idl) (table : CtlTableClassM) (rid : Str) :
    List CtlRowId → Except CtlErr (Option RowC)
  | [] => .ok none
  | id :: ids => do
      match ← get_row_by_id idl table id rid with
      | some r => .ok (some r)
      | none => try_row_ids idl table rid ids

/-- Modelled from the spec: `uuid_from_string` (an external utility) parses
the textual form of a uuid.  Row uuids are abstracted to `Nat`, so their
textual form is modelled as a non-empty all-digit token. -/
def uuid_from_string (s : Str) : Option Nat :=
  if s ≠ [] ∧ s.all Char.isDigit then
    some (s.foldl (fun n c => n * 10 + (c.toNat - 48)) 0)
  else none

/-- `get_row`: try the record token as a uuid lookup first; only if that
produces no row, walk the row-id descriptors; a missing row is fatal exactly
when `must_exist` holds. -/
def get_row (idl : Idl) (table : CtlTableClassM) (rid : Str)
    (must_exist : Bool) : Except CtlErr (Option RowC) := do
  let row0 : Option RowC :=
    match uuid_from_string rid with
    | some u => get_row_for_uuid idl table.name u
    | none => none
  let row ←
    match row0 with
    | some r => pure (some r)
    | none => try_row_ids idl table rid table.row_ids
  match row with
  | some r => .ok (some r)
  | none =>
      if must_exist then .error (.noRow rid table.name)
      else .ok none

/-! ### The argument parser (`parse_column_key_value`) -/

/-- Modelled from the spec: the delimiter set of the caller's token lexer. -/
def token_delims : List Char :=
  [',', ':', '=', ' ', '[', ']', '{', '}', '!', '<', '>']

/-- Modelled from the spec: `ovsdb_token_parse`, the token lexer — a bare
word running up to the next delimiter, or a quoted string with JSON-style
escapes.  Quoted strings are not exercised by any claim; a leading quote is
modelled as the lexer's error outcome. -/
def ovsdb_token_parse (arg s : Str) : Except CtlErr (Str × Str) :=
  if s.head? = some '"' then .error (.tokenError arg)
  else .ok (s.takeWhile (fun c => !(token_delims.contains c)),
            s.dropWhile (fun c => !(token_delims.contains c)))

/-- The operator-selection loop of `parse_column_key_value`: scan the
allowed operators keeping (index, length) of the longest one that is a
prefix of `p` and is followed by at least one character; `best` stays `-1`
when none qualifies. -/
def selOpLoop (p : Str) : List Str → Nat → Int → Nat → Int × Nat
  | [], _, best, best_len => (best, best_len)
  | op :: rest, i, best, best_len =>
      if op.length > best_len ∧ p.take op.length = op ∧ op.length < p.length then
        selOpLoop p rest (i + 1) (i : Int) op.length
      else selOpLoop p rest (i + 1) best best_len

/-- The whole selection, started from `best = -1`, `best_len = 0`. -/
def selectOperator (ops : List Str) (p : Str) : Int × Nat :=
  selOpLoop p ops 0 (-1) 0

/-- Whether `parse_column_key_value` was called with a null `valuep`
(`plain`), a value pointer only (`withValue`), or value and operator
pointers (`withValueAndOp`); the C code asserts that an operator pointer
implies a value pointer. -/
inductive PMode where
  | plain | withValue | withValueAndOp
deriving DecidableEq, Repr

/-- The out-parameters of `parse_column_key_value`. -/
structure PCKVOut where
  column : Option Str := none
  key : Option Str := none
  op : Option Int := none
  value : Option Str := none
deriving DecidableEq, Repr

/-- The error epilogue of `parse_column_key_value`: every failure path
stores NULL into the column and key slots, NULL into the value slot when a
value was requested, and -1 into the operator slot when an operator index
was requested. -/
def pckv_error_out (mode : PMode) : PCKVOut :=
  { column := none, key := none,
    op := if mode = .withValueAndOp then some (-1) else none,
    value := none }

/-- `parse_column_key_value`: a column token (resolved through
`get_column`), an optional `:KEY` token, and — when a value is wanted — the
longest allowed operator (defaulting to `=` when the caller supplies none)
followed by the value, which is the entire remainder.  Returns the optional
error paired with the stored out-parameters. -/
def parse_column_key_value (arg tableName : Str) (cols : List Str)
    (mode : PMode) (allowed_operators : Option (List Str)) :
    Option CtlErr × PCKVOut :=
  match ovsdb_token_parse arg arg with
  | .error e => (some e, pckv_error_out mode)
  | .ok (column_name, p1) =>
    if column_name = [] then (some (.missingColumnName arg), pckv_error_out mode)
    else
      match get_column tableName cols column_name with
      | .error e => (some e, pckv_error_out mode)
      | .ok col =>
        let keyStep : Except CtlErr (Option Str × Str) :=
          if p1.head? = some ':' then
            match ovsdb_token_parse arg p1.tail with
            | .error e => .error e
            | .ok (k, p2) => .ok (some k, p2)
          else .ok (none, p1)
        match keyStep with
        | .error e => (some e, pckv_error_out mode)
        | .ok (key?, p) =>
          match mode with
          | .plain =>
              if p ≠ [] then (some (.trailingGarbage arg p), pckv_error_out mode)
              else (none, { column := some col, key := key? })
          | _ =>
              let ops := allowed_operators.getD [strL "="]
              let sel := selectOperator ops p
              if sel.1 < 0 then (some (.missingOperator arg ops), pckv_error_out mode)
              else
                (none, { column := some col, key := key?,
                         op := if mode = .withValueAndOp then some sel.1 else none,
                         value := some (p.drop sel.2) })

/-! ### The relational evaluator (`evaluate_relop`, `is_condition_satisfied`) -/

/-- `enum relop`, the twelve operators. -/
inductive Relop where
  | eq | ne | lt | gt | le | ge
  | set_eq | set_ne | set_lt | set_gt | set_le | set_ge
deriving DecidableEq, Repr

/-- The operator strings of `RELOPS`, in enum order. -/
def relop_strings : List Str :=
  [strL "=", strL "!=", strL "<", strL ">", strL "<=", strL ">=",
   strL "{=}", strL "{!=}", strL "{<}", strL "{>}", strL "{<=}", strL "{>=}"]

/-- The enum value for an operator index returned by the parser. -/
def relop_of_index : Nat → Option Relop
  | 0 => some .eq
  | 1 => some .ne
  | 2 => some .lt
  | 3 => some .gt
  | 4 => some .le
  | 5 => some .ge
  | 6 => some .set_eq
  | 7 => some .set_ne
  | 8 => some .set_lt
  | 9 => some .set_gt
  | 10 => some .set_le
  | 11 => some .set_ge
  | _ => none

/-- `is_set_operator`. -/
def is_set_operator : Relop → Bool
  | .set_eq | .set_ne | .set_lt | .set_gt | .set_le | .set_ge => true
  | _ => false

/-- Lexicographic comparison of equal-length atom lists. -/
def lexCompare : List Nat → List Nat → Int
  | [], [] => 0
  | [], _ :: _ => -1
  | _ :: _, [] => 1
  | x :: xs, y :: ys => if x < y then -1 else if y < x then 1 else lexCompare xs ys

/-- Modelled from the spec: `ovsdb_datum_compare_3way` (an external datum
primitive) — sizes first, then atoms in order; the type argument selects the
atom comparison in C and is kept for structure. -/
def datum_compare_3way (a b : List Nat) (_t : OType) : Int :=
  if a.length ≠ b.length then (if a.length < b.length then -1 else 1)
  else lexCompare a b

/-- Modelled from the spec: `ovsdb_datum_includes_all` — every atom of `a`
appears in `b`. -/
def datum_includes_all (a b : List Nat) (_t : OType) : Bool :=
  a.all (fun x => b.contains x)

/-- `evaluate_relop`. -/
def evaluate_relop (a b : List Nat) (t : OType) (op : Relop) : Bool :=
  match op with
  | .eq | .set_eq => decide (datum_compare_3way a b t = 0)
  | .ne | .set_ne => decide (datum_compare_3way a b t ≠ 0)
  | .lt => decide (datum_compare_3way a b t < 0)
  | .gt => decide (datum_compare_3way a b t > 0)
  | .le => decide (datum_compare_3way a b t ≤ 0)
  | .ge => decide (datum_compare_3way a b t ≥ 0)
  | .set_lt => decide (b.length > a.length) && datum_includes_all a b t
  | .set_gt => decide (a.length > b.length) && datum_includes_all b a t
  | .set_le => datum_includes_all a b t
  | .set_ge => datum_includes_all b a t

/-- Lines 655-656 of `is_condition_satisfied`: the comparison type starts
from the column's declared type with `n_max` widened to unbounded. -/
def widened_type (t : OType) : OType := { t with n_max := UINT_MAX }

/-- Lines 672-673: in the key-qualified case the widened type is further
re-keyed — its key atomic type becomes the map's value type and its value
type is cleared to void — because the datums compared hold value atoms. -/
def condition_comparison_type (t : OType) : OType :=
  let t1 := widened_type t
  { t1 with key := t1.value, value := AtomTy.void }

/-- `ovsdb_datum_find_key` on the model: the index of `k` among the keys. -/
def find_key_idx : List Nat → Nat → Nat → Option Nat
  | [], _, _ => none
  | x :: xs, k, i => if x = k then some i else find_key_idx xs k (i + 1)

/-- The value stored under key `k` of a map datum `(keys, values)`, when the
key is present. -/
def datum_get_value (d : List Nat × List Nat) (k : Nat) : Option Nat :=
  match find_key_idx d.1 k 0 with
  | none => none
  | some i => some (d.2.getD i 0)

/-- The key-qualified evaluation core of `is_condition_satisfied` (lines
659-694): an absent key short-circuits the six scalar operators to `false`;
with a set operator the empty datum is compared; with the key present the
singleton datum holding the stored value is compared — always against the
re-keyed widened type. -/
def condition_key_check (colTy : OType) (have_datum : List Nat × List Nat)
    (want_key : Nat) (b : List Nat) (op : Relop) : Bool :=
  let t := condition_comparison_type colTy
  match datum_get_value have_datum want_key with
  | none =>
      if !(is_set_operator op) then false
      else evaluate_relop [] b t op
  | some v => evaluate_relop [v] b t op

/-- `is_condition_satisfied` from the point where the argument has been
parsed (`parse_column_key_value`, claim C8) and the key and value strings
converted to atoms by the external `ovsdb_atom_from_string` /
`ovsdb_datum_from_string`: the no-key case compares the row's whole datum
under the merely widened type, the key case runs the key-qualified check. -/
def is_condition_satisfied (colTy : OType) (have_datum : List Nat × List Nat)
    (key : Option Nat) (b : List Nat) (op : Relop) : Bool :=
  match key with
  | some k => condition_key_check colTy have_datum k b op
  | none => evaluate_relop have_datum.1 b (widened_type colTy) op

/-! ### The command-stream parser (`parse_command`) -/

/-- The scan of C `strstr`, tracking the current index. -/
def strstr_go (needle : Str) : Str → Nat → Option Nat
  | [], i => if needle.isPrefixOf [] then some i else none
  | c :: rest, i =>
      if needle.isPrefixOf (c :: rest) then some i
      else strstr_go needle rest (i + 1)

/-- C `strstr`: the index of the **first** occurrence of `needle` in
`hay`. -/
def strstr_index (hay needle : Str) : Option Nat := strstr_go needle hay 0

/-- The character right after the first occurrence of `name` in `spec`
(inner `none`: the occurrence runs to the end of the string; outer `none`:
no occurrence, where the C reads EOF). -/
def option_end_char (spec name : Str) : Option (Option Char) :=
  (strstr_index spec name).map (fun i => spec[i + name.length]?)

/-- The per-option validation of `parse_command`: the character after the
first occurrence of the option name in the verb's options string must be
`=`, `,`, a space, or the end of the string, and `=` must agree with
whether the token carried a value. -/
def validate_option (cmd spec name : Str) (hasValue : Bool) : Except CtlErr Unit :=
  match option_end_char spec name with
  | none => .error (.noSuchOption cmd name)
  | some e1 =>
      if e1 ≠ some '=' ∧ e1 ≠ some ',' ∧ e1 ≠ some ' ' ∧ e1 ≠ none then
        .error (.noSuchOption cmd name)
      else if (decide (e1 = some '=')) != hasValue then
        if e1 = some '=' then .error (.missingOptionArg cmd name)
        else .error (.optionNoArg cmd name)
      else .ok ()

/-- Validate every collected option against the verb's options string. -/
def validate_options (cmd spec : Str) : List (Str × Option Str) → Except CtlErr Unit
  | [] => .ok ()
  | (name, val) :: rest => do
      validate_option cmd spec name val.isSome
      validate_options cmd spec rest

/-- Split an option token at its first `=` (C `strchr`): `key` alone when
there is none, otherwise `key` and the text after the `=`. -/
def split_option_token (a : Str) : Str × Option Str :=
  let key := a.takeWhile (fun c => c ≠ '=')
  if key.length = a.length then (a, none)
  else (key, some (a.drop (key.length + 1)))

/-- The option-collection loop of `parse_command`: leading `-…` tokens become
per-command options; a key already present (including one merged from the
stream-wide local options) is fatal. -/
def collect_options : List Str → List (Str × Option Str) →
    Except CtlErr (List (Str × Option Str) × List Str)
  | [], acc => .ok (acc, [])
  | a :: rest, acc =>
      if a.head? ≠ some '-' then .ok (acc, a :: rest)
      else
        let kv := split_option_token a
        if (acc.lookup kv.1).isSome then .error (.duplicateOption a)
        else collect_options rest (acc ++ [kv])

/-- `struct ctl_command_syntax`, the parts `parse_command` consults. -/
structure CtlCommandSyntaxM where
  name : Str
  min_args : Nat
  max_args : Nat
  options : Str
deriving DecidableEq, Repr

/-- The parsed command `parse_command` fills in. -/
structure ParsedCmd where
  cmd_name : Str
  options : List (Str × Option Str)
  args : List Str
deriving DecidableEq, Repr

/-- `parse_command`: collect the leading option tokens (duplicates fatal),
find the verb, validate each option against the verb's options string, and
check the positional argument count. -/
def parse_command (argv : List Str) (local_options : List (Str × Option Str))
    (registry : List CtlCommandSyntaxM) : Except CtlErr ParsedCmd := do
  let (opts, rest) ← collect_options argv local_options
  match rest with
  | [] => .error .missingCommandName
  | cmdname :: args =>
      match registry.find? (fun p => p.name == cmdname) with
      | none => .error (.unknownCommand cmdname)
      | some p => do
          validate_options cmdname p.options opts
          if args.length < p.min_args then .error (.tooFewArgs p.name p.min_args)
          else if args.length > p.max_args then
            if args.any (fun a => a.head? == some '-') then
              .error (.tooManyArgsOptionNote p.name p.max_args)
            else .error (.tooManyArgs p.name p.max_args)
          else .ok { cmd_name := p.name, options := opts, args := cmdname :: args }

/-- The claim's reading of option acceptance, following the specification's
words: the option name occurs **somewhere** in the options string followed
by `=`, `,`, a space, or the end of the string (with `=` agreeing with the
presence of a value).  Stated for comparison with `validate_option`, which
uses only the first occurrence. -/
def claimed_option_accepted (spec name : Str) (hasValue : Bool) : Bool :=
  (List.range (spec.length + 1)).any (fun i =>
    ((spec.drop i).take name.length == name) &&
    (((spec[i + name.length]? == some '=') || (spec[i + name.length]? == some ',')
        || (spec[i + name.length]? == some ' ') || (spec[i + name.length]? == none))
      && ((spec[i + name.length]? == some '=') == hasValue)))

/-! ### The show renderer (`cmd_show_row` / `cmd_show`) -/

/-- `cmd_show_table.wref_table`: the table whose rows weakly reference the
current row, the column naming them, and the column holding the back
reference. -/
structure WrefSpec where
  table : Str
  name_column : Str
  wref_column : Str
deriving DecidableEq, Repr

/-- The type shape of one configured `show` column, as the C code branches
on it: a (set of) uuid(s) referencing a table, a map whose values are uuids
referencing a table, or anything else. -/
inductive ShowColTy where
  | uuidRef (refTable : Str)
  | mapUuidRef (refTable : Str)
  | plain
deriving DecidableEq, Repr

/-- One configured column of a `cmd_show_table` entry. -/
structure ShowCol where
  name : Str
  ty : ShowColTy
deriving DecidableEq, Repr

/-- One entry of `cmd_show_tables[]`. -/
structure ShowTableSpec where
  table : Str
  name_column : Option Str := none
  columns : List ShowCol := []
  wref : Option WrefSpec := none
deriving DecidableEq, Repr

/-- A cached row as `show` reads it: its uuid, its table-class name, and
per-column datums (keys and values, atoms abstracted to `Nat`). -/
structure SRow where
  uuid : Nat
  table : Str
  data : List (Str × (List Nat × List Nat)) := []
deriving DecidableEq, Repr

/-- `ovsdb_idl_read` on the show model.  Modelled from the spec: a column
never written reads as the empty datum, which is also the model of
`ovsdb_datum_is_default`'s default. -/
def srowRead (r : SRow) (c : Str) : List Nat × List Nat :=
  (r.data.lookup c).getD ([], [])

/-- The IDL state visible to `show`: the `cmd_show_tables[]` array and the
cached rows. -/
structure ShowEnv where
  showTables : List ShowTableSpec
  rows : List SRow := []
deriving DecidableEq, Repr

/-- Row iteration over one table. -/
def envRows (env : ShowEnv) (t : Str) : List SRow :=
  env.rows.filter (fun r => r.table == t)

/-- `ovsdb_idl_get_row_for_uuid` on the show model. -/
def envRowForUuid (env : ShowEnv) (t : Str) (u : Nat) : Option SRow :=
  (envRows env t).find? (fun r => r.uuid == u)

/-- `cmd_show_find_table_by_name`. -/
def cmd_show_find_table_by_name (env : ShowEnv) (n : Str) : Option ShowTableSpec :=
  env.showTables.find? (fun s => s.table == n)

/-- `cmd_show_find_table_by_row` (the C compares table-class pointers; the
model compares the class names). -/
def cmd_show_find_table_by_row (env : ShowEnv) (r : SRow) : Option ShowTableSpec :=
  env.showTables.find? (fun s => s.table == r.table)

/-- One line of `show` output, keeping the structure rather than the
formatted text. -/
inductive ShowLine where
  | rowHeader (level : Nat) (table : Str) (nameDatum : List Nat)
  | rowHeaderUuid (level : Nat) (uuid : Nat)
  | mapHeader (level : Nat) (col : Str)
  | mapEntry (level : Nat) (key : Nat) (refName : Option (List Nat))
  | colLine (level : Nat) (col : Str) (datum : List Nat × List Nat)
  | wrefLine (level : Nat) (table : Str) (nameDatum : List Nat × List Nat)
deriving DecidableEq, Repr

/-- `cmd_show_weak_ref`: print every row of the weak-reference table whose
first wref atom equals the current row's uuid. -/
def cmd_show_weak_ref (env : ShowEnv) (s : ShowTableSpec) (cur : SRow)
    (level : Nat) : List ShowLine :=
  match s.wref with
  | none => []
  | some w =>
      (envRows env w.table).filterMap (fun rw =>
        if (srowRead rw w.wref_column).1.head? = some cur.uuid then
          some (.wrefLine (level + 1) w.table (srowRead rw w.name_column))
        else none)

/-- The header line of `cmd_show_row`: `TABLE <name-datum>` when the row's
table has a descriptor with a name column, the raw uuid otherwise. -/
def show_row_header (env : ShowEnv) (row : SRow) (level : Nat) : ShowLine :=
  match cmd_show_find_table_by_row env row with
  | some s =>
      match s.name_column with
      | some nc => .rowHeader level s.table (srowRead row nc).1
      | none => .rowHeaderUuid level row.uuid
  | none => .rowHeaderUuid level row.uuid

/-- The recursion step over one resolved strong reference: recurse into the
referent row at the next level, threading the `shown` set; a dangling uuid
contributes nothing. -/
def show_ref_step (env : ShowEnv)
    (rec : SRow → Nat → List Str → List ShowLine × List Str)
    (ref : Str) (level : Nat) (acc2 : List ShowLine × List Str) (u : Nat) :
    List ShowLine × List Str :=
  match envRowForUuid env ref u with
  | some r2 =>
      let res := rec r2 (level + 1) acc2.2
      (acc2.1 ++ res.1, res.2)
  | none => acc2

/-- The body of the per-column loop of `cmd_show_row`, parameterized by the
recursive call `rec`: a scalar-uuid reference column whose target is itself
a `cmd_show_tables` entry recurses into each referent row; a map with uuid
values whose target has a name column prints the key-to-name map; any other
column prints its datum when it differs from the default. -/
def show_col_step (env : ShowEnv)
    (rec : SRow → Nat → List Str → List ShowLine × List Str)
    (row : SRow) (level : Nat) (acc : List ShowLine × List Str)
    (col : ShowCol) : List ShowLine × List Str :=
  let datum := srowRead row col.name
  match col.ty with
  | .uuidRef ref =>
      match cmd_show_find_table_by_name env ref with
      | some _ => datum.1.foldl (show_ref_step env rec ref level) acc
      | none =>
          if datum ≠ ([], []) then
            (acc.1 ++ [.colLine (level + 1) col.name datum], acc.2)
          else acc
  | .mapUuidRef ref =>
      match cmd_show_find_table_by_name env ref with
      | some rs =>
          match rs.name_column with
          | some rnc =>
              (acc.1 ++ [.mapHeader (level + 1) col.name] ++
                (List.zip datum.1 datum.2).map (fun kv =>
                  match envRowForUuid env ref kv.2 with
                  | some r2 => .mapEntry (level + 2) kv.1 (some (srowRead r2 rnc).1)
                  | none => .mapEntry (level + 2) kv.1 none),
               acc.2)
          | none =>
              if datum ≠ ([], []) then
                (acc.1 ++ [.colLine (level + 1) col.name datum], acc.2)
              else acc
      | none =>
          if datum ≠ ([], []) then
            (acc.1 ++ [.colLine (level + 1) col.name datum], acc.2)
          else acc
  | .plain =>
      if datum ≠ ([], []) then
        (acc.1 ++ [.colLine (level + 1) col.name datum], acc.2)
      else acc

/-- `cmd_show_row` with explicit fuel (each nesting level consumes one
unit; `cmd_show_row` below supplies fuel exceeding the recursion-depth
measure, and the fuel-stability theorem shows the choice does not matter).
The `shown` set is threaded exactly as the C threads its `sset`: the row's
table name is added before the configured columns are expanded and removed
again before returning; a row whose table name is already on `shown` (or
whose table has no descriptor) produces only its header line. -/
def showRowAux (env : ShowEnv) : Nat → SRow → Nat → List Str →
    List ShowLine × List Str
  | 0, _, _, shown => ([], shown)
  | fuel + 1, row, level, shown =>
    let header := show_row_header env row level
    match cmd_show_find_table_by_row env row with
    | none => ([header], shown)
    | some s =>
        if s.table ∈ shown then ([header], shown)
        else
          let body := s.columns.foldl
            (show_col_step env (fun r l sh => showRowAux env fuel r l sh) row level)
            ([header], s.table :: shown)
          (body.1 ++ cmd_show_weak_ref env s row level, body.2.erase s.table)

/-- The recursion-depth measure: the number of `cmd_show_tables` entries
whose table name is not yet on the current path. -/
def show_measure (env : ShowEnv) (shown : List Str) : Nat :=
  ((env.showTables.map (fun s => s.table)).filter
    (fun t => !(shown.contains t))).length

/-- `cmd_show_row` proper: the fuel strictly exceeds every reachable
measure. -/
def cmd_show_row (env : ShowEnv) (row : SRow) (level : Nat) (shown : List Str) :
    List ShowLine × List Str :=
  showRowAux env (env.showTables.length + 1) row level shown

/-- `cmd_show`: render every row of the first `cmd_show_tables` entry at
level 0, threading the (initially empty) `shown` set. -/
def cmd_show (env : ShowEnv) : List ShowLine × List Str :=
  match env.showTables.head? with
  | none => ([], [])
  | some s0 =>
      (envRows env s0.table).foldl (fun acc row =>
        let res := cmd_show_row env row 0 acc.2
        (acc.1 ++ res.1, res.2)) ([], [])

/-- The specification's own acyclicity test schema: tables `A` and `B`,
each a `cmd_show_tables` entry, with one row each referencing the other
(`A→B`, `B→A`). -/
def cyclicShowEnv : ShowEnv :=
  { showTables :=
      [{ table := strL "A",
         columns := [{ name := strL "ref", ty := .uuidRef (strL "B") }] },
       { table := strL "B",
         columns := [{ name := strL "ref", ty := .uuidRef (strL "A") }] }],
    rows :=
      [{ uuid := 1, table := strL "A", data := [(strL "ref", ([2], []))] },
       { uuid := 2, table := strL "B", data := [(strL "ref", ([1], []))] }] }

end DbCtl

namespace DbCtl

/-! ### Theorems for C1 and C2 -/

theorem score_loop_spec (name s : Str) (k : Nat) :
    score_loop name s k =
      if normName name = normName s then UINT_MAX - 1
      else if (normName name).take s.length = normName s then k + s.length
      else 0 := by
  induction name generalizing s k with
  | nil =>
      cases s with
      | nil => simp [score_loop, normName]
      | cons b bs => simp [score_loop, normName]
  | cons a as ih =>
      cases s with
      | nil => simp [score_loop, normName]
      | cons b bs =>
          simp only [score_loop, normName, List.map_cons, List.length_cons,
            List.take_succ_cons]
          by_cases h : to_lower_and_underscores a = to_lower_and_underscores b
          · simp only [if_pos h, h]
            rw [ih bs (k + 1)]
            simp only [normName]
            by_cases h1 : (as.map to_lower_and_underscores) = bs.map to_lower_and_underscores
            · simp [h1]
            · have h2 : ¬(to_lower_and_underscores b :: as.map to_lower_and_underscores
                  = to_lower_and_underscores b :: bs.map to_lower_and_underscores) := by
                simp [h1]
              rw [if_neg h1, if_neg h2]
              by_cases h3 : (as.map to_lower_and_underscores).take bs.length
                  = bs.map to_lower_and_underscores
              · simp [h3]; omega
              · have h4 : ¬(to_lower_and_underscores b :: (as.map to_lower_and_underscores).take bs.length
                    = to_lower_and_underscores b :: bs.map to_lower_and_underscores) := by
                  simp [h3]
                rw [if_neg h3, if_neg h4]
                simp
          · have h1 : ¬(to_lower_and_underscores a :: as.map to_lower_and_underscores
                = to_lower_and_underscores b :: bs.map to_lower_and_underscores) := by
              intro hc; exact h (List.cons.injEq .. ▸ hc).1
            have h2 : ¬(to_lower_and_underscores a :: (as.map to_lower_and_underscores).take bs.length
                = to_lower_and_underscores b :: bs.map to_lower_and_underscores) := by
              intro hc; exact h (List.cons.injEq .. ▸ hc).1
            simp [h, h1, h2]

/-- C1, counterexample.  The claim's own examples fail on the code: a match
that is exact only after normalization scores `UINT_MAX - 1`, not `UINT_MAX`,
and `"FooBar"` against `"foo_bar"` scores 0 (normalization does not delete
`_`, it only lowercases and identifies `-` with `_`). -/
theorem score_partial_match_claim_examples_fail :
    score_partial_match (strL "foo_bar") (strL "foo-bar") = UINT_MAX - 1 ∧
    score_partial_match (strL "foo_bar") (strL "foo-bar") ≠ UINT_MAX ∧
    score_partial_match (strL "FooBar") (strL "foo_bar") = 0 ∧
    score_partial_match (strL "FooBar") (strL "foo_bar") ≠ UINT_MAX := by
  refine ⟨by decide, by decide, by decide, by decide⟩

theorem maxScore_concat (names : List Str) (q c : Str) :
    maxScore (names ++ [c]) q = max (maxScore names q) (score_partial_match c q) := by
  simp [maxScore, List.foldl_append]

theorem score_le_maxScore (names : List Str) (q : Str) :
    ∀ n ∈ names, score_partial_match n q ≤ maxScore names q := by
  induction names using List.reverseRecOn with
  | nil => simp
  | append_singleton l c ih =>
      intro n hn
      rw [maxScore_concat]
      rcases List.mem_append.1 hn with h | h
      · exact le_trans (ih n h) (le_max_left _ _)
      · simp only [List.mem_singleton] at h
        subst h; exact le_max_right _ _

theorem maxScore_attained (names : List Str) (q : Str) (h : maxScore names q ≠ 0) :
    ∃ n ∈ names, score_partial_match n q = maxScore names q := by
  induction names using List.reverseRecOn with
  | nil => simp [maxScore] at h
  | append_singleton l c ih =>
      rw [maxScore_concat] at h ⊢
      rcases le_total (score_partial_match c q) (maxScore l q) with hle | hle
      · rw [max_eq_left hle] at h ⊢
        obtain ⟨n, hn, he⟩ := ih h
        exact ⟨n, List.mem_append_left _ hn, he⟩
      · rw [max_eq_right hle]
        exact ⟨c, List.mem_append_right _ (List.mem_singleton_self c), rfl⟩

theorem maxScore_zero (names : List Str) (q : Str)
    (h : ∀ n ∈ names, score_partial_match n q = 0) : maxScore names q = 0 := by
  by_contra hc
  obtain ⟨n, hn, he⟩ := maxScore_attained names q hc
  exact hc (he ▸ h n hn)

theorem bestStep_case_gt (q c : Str) (st : Option Str × Nat)
    (h : st.2 < score_partial_match c q) :
    bestStep q st c = (some c, score_partial_match c q) := by
  unfold bestStep
  rw [if_pos h]

theorem bestStep_case_eq (q c : Str) (st : Option Str × Nat)
    (h : score_partial_match c q = st.2) :
    bestStep q st c = (none, st.2) := by
  unfold bestStep
  rw [if_neg (by omega), if_pos h]

theorem bestStep_case_lt (q c : Str) (st : Option Str × Nat)
    (h : score_partial_match c q < st.2) :
    bestStep q st c = st := by
  unfold bestStep
  rw [if_neg (by omega), if_neg (by omega)]

/-- Characterization of the C selection loop: the second component is the
maximal score seen, and the first survives exactly when that maximum is
non-zero and attained at exactly one position, in which case it is the first
(and only) attaining candidate. -/
theorem bestMatch_spec (names : List Str) (q : Str) :
    bestMatch names q =
      (if 0 < maxScore names q ∧
          names.countP (fun n => score_partial_match n q == maxScore names q) = 1
        then names.find? (fun n => score_partial_match n q == maxScore names q)
        else none,
       maxScore names q) := by
  induction names using List.reverseRecOn with
  | nil => simp [bestMatch, maxScore]
  | append_singleton l c ih =>
      have hstep : bestMatch (l ++ [c]) q = bestStep q (bestMatch l q) c := by
        simp [bestMatch, List.foldl_append]
      rcases lt_trichotomy (maxScore l q) (score_partial_match c q) with hlt | heq | hgt
      · -- strictly new maximum: the new candidate wins alone
        have hmax : maxScore (l ++ [c]) q = score_partial_match c q := by
          rw [maxScore_concat]; omega
        have hzero : l.countP (fun n => score_partial_match n q == score_partial_match c q) = 0 := by
          rw [List.countP_eq_zero]
          intro n hn
          have := score_le_maxScore l q n hn
          simp only [beq_iff_eq]
          omega
        have hfindl : l.find? (fun n => score_partial_match n q == score_partial_match c q)
            = none := by
          rw [List.find?_eq_none]
          intro n hn
          have := score_le_maxScore l q n hn
          simp only [beq_iff_eq]
          omega
        have hcnt : (l ++ [c]).countP
            (fun n => score_partial_match n q == maxScore (l ++ [c]) q) = 1 := by
          rw [hmax, List.countP_append, hzero]
          simp
        have hfind : (l ++ [c]).find?
            (fun n => score_partial_match n q == maxScore (l ++ [c]) q) = some c := by
          rw [hmax, List.find?_append, hfindl]
          simp
        rw [hstep, ih, bestStep_case_gt q c _ hlt, hcnt, hfind,
          if_pos ⟨by rw [hmax]; omega, rfl⟩, hmax]
      · -- a tie with the running maximum erases the best match
        have hmax : maxScore (l ++ [c]) q = maxScore l q := by
          rw [maxScore_concat]; omega
        have hL : bestMatch (l ++ [c]) q = (none, maxScore l q) := by
          rw [hstep, ih, bestStep_case_eq q c _ heq.symm]
        rw [hL, hmax]
        by_cases hpos : 0 < maxScore l q
        · have hone : 1 ≤ l.countP (fun n => score_partial_match n q == maxScore l q) := by
            rw [Nat.succ_le, List.countP_pos_iff]
            obtain ⟨n, hn, he⟩ := maxScore_attained l q (by omega)
            exact ⟨n, hn, by simp [he]⟩
          have hne : (l ++ [c]).countP
              (fun n => score_partial_match n q == maxScore l q) ≠ 1 := by
            have hb : (score_partial_match c q == maxScore l q) = true := by simp [← heq]
            simp only [List.countP_append, List.countP_cons, List.countP_nil, hb]
            simp only [if_true]
            omega
          rw [if_neg (fun h => hne h.2)]
        · rw [if_neg (fun h => hpos h.1)]
      · -- a lower score leaves the fold state unchanged
        have hmax : maxScore (l ++ [c]) q = maxScore l q := by
          rw [maxScore_concat]; omega
        have hcnt : (l ++ [c]).countP (fun n => score_partial_match n q == maxScore l q)
            = l.countP (fun n => score_partial_match n q == maxScore l q) := by
          have hb : (score_partial_match c q == maxScore l q) = false := by
            simp only [beq_eq_false_iff_ne]
            omega
          simp [List.countP_append, List.countP_cons, hb]
        have hL : bestMatch (l ++ [c]) q =
            (if 0 < maxScore l q ∧
                l.countP (fun n => score_partial_match n q == maxScore l q) = 1
              then l.find? (fun n => score_partial_match n q == maxScore l q)
              else none,
             maxScore l q) := by
          rw [hstep, ih, bestStep_case_lt q c _ hgt]
        rw [hL, hmax, hcnt]
        by_cases hcond : 0 < maxScore l q ∧
            l.countP (fun n => score_partial_match n q == maxScore l q) = 1
        · rw [if_pos hcond, if_pos hcond]
          have hfindl : ∃ u, l.find? (fun n => score_partial_match n q == maxScore l q)
              = some u := by
            rw [← Option.isSome_iff_exists, List.find?_isSome]
            obtain ⟨n, hn, he⟩ := maxScore_attained l q hcond.1.ne'
            exact ⟨n, hn, by simp [he]⟩
          obtain ⟨u, hu⟩ := hfindl
          rw [List.find?_append, hu]
          rfl
        · rw [if_neg hcond, if_neg hcond]

theorem countP_one_find? {α : Type} (p : α → Bool) (l : List α) (c : α)
    (h1 : l.countP p = 1) (hc : c ∈ l) (hp : p c = true) : l.find? p = some c := by
  induction l with
  | nil => cases hc
  | cons a as ih =>
      by_cases ha : p a = true
      · have hz : as.countP p = 0 := by
          rw [List.countP_cons, if_pos ha] at h1
          omega
        have hca : c = a := by
          rcases List.mem_cons.1 hc with h | h
          · exact h
          · exfalso
            have hpos : 0 < as.countP p := List.countP_pos_iff.2 ⟨c, h, hp⟩
            omega
        subst hca
        exact List.find?_cons_of_pos _ hp
      · have hca : c ≠ a := fun he => ha (he ▸ hp)
        have hmem : c ∈ as := (List.mem_cons.1 hc).resolve_left hca
        have h1a : as.countP p = 1 := by
          rw [List.countP_cons, if_neg ha] at h1
          omega
        rw [List.find?_cons_of_neg _ ha]
        exact ih h1a hmem

/-- C2.  Name resolution, for columns (`get_column`) and for tables
(`get_table`), returns the candidate whose score is the strict maximum:
when every candidate scores zero the unknown-name error results; when the
non-zero maximal score is attained by two or more candidates the ambiguity
error results and no candidate is returned; and when exactly one candidate
attains the non-zero maximal score, exactly that candidate is returned. -/
theorem name_resolution_strict_maximum (tn q : Str) (cols tbls : List Str) :
    ((∀ c ∈ cols, score_partial_match c q = 0) →
        get_column tn cols q = .error (.unknownColumn tn q)) ∧
    (0 < maxScore cols q →
      2 ≤ cols.countP (fun c => score_partial_match c q == maxScore cols q) →
        get_column tn cols q = .error (.ambiguousColumn tn q)) ∧
    (∀ c ∈ cols, score_partial_match c q = maxScore cols q → 0 < maxScore cols q →
      cols.countP (fun n => score_partial_match n q == maxScore cols q) = 1 →
        get_column tn cols q = .ok c) ∧
    ((∀ t ∈ tbls, score_partial_match t q = 0) →
        get_table tbls q = .error (.unknownTable q)) ∧
    (0 < maxScore tbls q →
      2 ≤ tbls.countP (fun t => score_partial_match t q == maxScore tbls q) →
        get_table tbls q = .error (.multipleTables q)) ∧
    (∀ t ∈ tbls, score_partial_match t q = maxScore tbls q → 0 < maxScore tbls q →
      tbls.countP (fun n => score_partial_match n q == maxScore tbls q) = 1 →
        get_table tbls q = .ok t) := by
  refine ⟨?_, ?_, ?_, ?_, ?_, ?_⟩
  · intro hz
    have hM := maxScore_zero cols q hz
    unfold get_column
    rw [bestMatch_spec]
    simp [hM]
  · intro hpos h2
    unfold get_column
    rw [bestMatch_spec]
    rw [if_neg (by omega)]
    simp only
    rw [if_pos (by omega)]
  · intro c hc he hpos h1
    unfold get_column
    rw [bestMatch_spec, if_pos ⟨hpos, h1⟩,
      countP_one_find? _ cols c h1 hc (by simp [he])]
  · intro hz
    have hM := maxScore_zero tbls q hz
    unfold get_table
    rw [bestMatch_spec]
    simp [hM]
  · intro hpos h2
    unfold get_table
    rw [bestMatch_spec]
    rw [if_neg (by omega)]
    simp only
    rw [if_pos (by omega)]
  · intro t ht he hpos h1
    unfold get_table
    rw [bestMatch_spec, if_pos ⟨hpos, h1⟩,
      countP_one_find? _ tbls t h1 ht (by simp [he])]

/-- C2, witness.  A concrete run: in a table with columns `external_ids` and
`external_mac`, the query `external` ties both at score 8 and is ambiguous,
while the query `external_i` uniquely selects `external_ids`. -/
theorem name_resolution_witness :
    get_column (strL "Port") [strL "external_ids", strL "external_mac"] (strL "external")
        = .error (.ambiguousColumn (strL "Port") (strL "external")) ∧
    get_column (strL "Port") [strL "external_ids", strL "external_mac"] (strL "external_i")
        = .ok (strL "external_ids") := by
  constructor
  · exact (name_resolution_strict_maximum (strL "Port") (strL "external")
      [strL "external_ids", strL "external_mac"] []).2.1 (by decide) (by decide)
  · exact ((name_resolution_strict_maximum (strL "Port") (strL "external_i")
      [strL "external_ids", strL "external_mac"] []).2.2.1 (strL "external_ids")
      (by decide) (by decide) (by decide) (by decide))

/-- C1, amended.  `score_partial_match` returns `UINT_MAX` exactly on a
byte-identical match; `UINT_MAX - 1` when the two names are equal after
normalization (lowercasing, `-` ≡ `_`) without being byte-identical; the
query's length (the number of matching leading characters) when the
normalized query is a proper prefix of the normalized candidate; and 0
otherwise. -/
theorem score_partial_match_characterization (name s : Str) :
    score_partial_match name s =
      if name = s then UINT_MAX
      else if normName name = normName s then UINT_MAX - 1
      else if (normName name).take s.length = normName s then s.length
      else 0 := by
  unfold score_partial_match
  by_cases h : name = s
  · simp [h]
  · rw [if_neg h, if_neg h, score_loop_spec name s 0, Nat.zero_add]

/-! ### Theorems for C6 (symbol table) -/

theorem lookup_map_set (ls : List (Str × OvsdbSymbol)) (id : Str) (s : OvsdbSymbol)
    (h : (ls.lookup id).isSome) :
    (ls.map (fun p => if p.1 = id then (p.1, s) else p)).lookup id = some s := by
  induction ls with
  | nil => simp [List.lookup] at h
  | cons hd tl ih =>
      rw [List.map_cons]
      by_cases he : hd.1 = id
      · rw [if_pos he]
        have hbeq : (id == hd.1) = true := by simp [he]
        simp only [List.lookup, hbeq]
      · rw [if_neg he]
        have hbeq : (id == hd.1) = false := beq_eq_false_iff_ne.2 (Ne.symm he)
        simp only [List.lookup, hbeq] at h
        simp only [List.lookup, hbeq]
        exact ih h

theorem lookup_symtab_set (st : SymTable) (id : Str) (s : OvsdbSymbol)
    (h : (symtab_get st id).isSome) : symtab_get (symtab_set st id s) id = some s :=
  lookup_map_set st.symbols id s h

/-- C6.  Binding a symbol name twice in one command stream is fatal:
`create_symbol` aborts on names not starting with `@`, aborts when the
symbol's `created` flag is already set (so after any successful binding —
by `create` or by `get --id` — a second binding of the same name fails),
and `get --id` additionally aborts whenever the symbol pre-existed in the
table. -/
theorem symbol_binding_unique (st : SymTable) (id : Str) (u : Nat) :
    (id.head? ≠ some '@' → create_symbol st id = .error (.badRowId id)) ∧
    (∀ s, id.head? = some '@' → symtab_get st id = some s → s.created = true →
        create_symbol st id = .error (.duplicateRowId id)) ∧
    (∀ st1 sym b, create_symbol st id = .ok (st1, sym, b) →
        symtab_get st1 id = some sym ∧ sym.created = true ∧
        create_symbol st1 id = .error (.duplicateRowId id) ∧
        ∀ u1, cmd_get_bind_id st1 id u1 = .error (.duplicateRowId id)) ∧
    (∀ st1, cmd_get_bind_id st id u = .ok st1 →
        ∃ s, symtab_get st1 id = some s ∧ s.created = true ∧
          create_symbol st1 id = .error (.duplicateRowId id)) ∧
    ((symtab_get st id).isSome → ∃ e, cmd_get_bind_id st id u = .error e) := by
  have hdup : ∀ st2 : SymTable, ∀ s, id.head? = some '@' →
      symtab_get st2 id = some s → s.created = true →
      create_symbol st2 id = .error (.duplicateRowId id) := by
    intro st2 s hat hs hc
    unfold create_symbol
    rw [if_neg (by simp [hat])]
    unfold symtab_insert
    unfold symtab_get at hs
    rw [hs]
    simp [hc]
  have hok : ∀ st1 sym b, create_symbol st id = .ok (st1, sym, b) →
      id.head? = some '@' ∧ symtab_get st1 id = some sym ∧ sym.created = true := by
    intro st1 sym b h
    unfold create_symbol at h
    by_cases hat : id.head? = some '@'
    · rw [if_neg (by simp [hat])] at h
      refine ⟨hat, ?_⟩
      unfold symtab_insert at h
      rcases hs : symtab_get st id with _ | s0
      · unfold symtab_get at hs
        rw [hs] at h
        simp only at h
        rcases h1 : ({} : OvsdbSymbol).created with _ | _
        · rw [if_neg (by simp [h1])] at h
          injection h with h
          injection h with ha hb
          injection hb with hb hc
          subst ha
          subst hb
          constructor
          · apply lookup_symtab_set
            unfold symtab_get
            simp [List.lookup]
          · rfl
        · simp at h1
      · unfold symtab_get at hs
        rw [hs] at h
        simp only at h
        by_cases h1 : s0.created
        · rw [if_pos h1] at h
          cases h
        · rw [if_neg h1] at h
          injection h with h
          injection h with ha hb
          injection hb with hb hc
          subst ha
          subst hb
          constructor
          · apply lookup_symtab_set
            unfold symtab_get
            rw [hs]
            rfl
          · rfl
    · rw [if_pos (by simp [hat])] at h
      cases h
  refine ⟨?_, ?_, ?_, ?_, ?_⟩
  · intro h
    unfold create_symbol
    rw [if_pos h]
  · intro s hat hs hc
    exact hdup st s hat hs hc
  · intro st1 sym b h
    obtain ⟨hat, hg, hc⟩ := hok st1 sym b h
    refine ⟨hg, hc, hdup st1 sym hat hg hc, ?_⟩
    intro u1
    unfold cmd_get_bind_id
    rw [hdup st1 sym hat hg hc]
    rfl
  · intro st1 h
    unfold cmd_get_bind_id at h
    rcases hcs : create_symbol st id with e | ⟨st2, sym, isNew⟩
    · rw [hcs] at h
      cases h
    · rw [hcs] at h
      obtain ⟨hat, hg, hc⟩ := hok st2 sym isNew hcs
      simp only [bind, Except.bind] at h
      by_cases hn : isNew
      · rw [hn] at h
        simp only [Bool.not_true] at h
        injection h with h
        subst h
        refine ⟨{ sym with uuid := u, strong_ref := true }, ?_, hc, ?_⟩
        · apply lookup_symtab_set
          rw [hg]
          rfl
        · apply hdup _ _ hat
          · apply lookup_symtab_set
            rw [hg]
            rfl
          · exact hc
      · simp only [Bool.not_eq_true] at hn
        rw [hn] at h
        simp only [Bool.not_false] at h
        cases h
  · intro h
    rcases hs : symtab_get st id with _ | s
    · rw [hs] at h
      cases h
    · by_cases hat : id.head? = some '@'
      · by_cases hc : s.created
        · refine ⟨.duplicateRowId id, ?_⟩
          unfold cmd_get_bind_id
          rw [hdup st s hat hs hc]
          rfl
        · refine ⟨.usedBeforeDefined id, ?_⟩
          unfold cmd_get_bind_id
          unfold create_symbol
          rw [if_neg (by simp [hat])]
          unfold symtab_insert
          unfold symtab_get at hs
          rw [hs]
          simp only [if_neg hc]
          unfold symtab_get
          rw [hs]
          simp [bind, Except.bind]
      · refine ⟨.badRowId id, ?_⟩
        unfold cmd_get_bind_id create_symbol
        rw [if_pos hat]
        rfl

/-- C6, witness: rebinding `@x` when its symbol is already `created` is the
fatal duplicate-id error, by the theorem applied at a concrete table. -/
theorem symbol_binding_unique_witness :
    create_symbol
        { symbols := [(strL "@x", { uuid := 0, created := true, strong_ref := false })] }
        (strL "@x")
      = .error (.duplicateRowId (strL "@x")) :=
  (symbol_binding_unique
      { symbols := [(strL "@x", { uuid := 0, created := true, strong_ref := false })] }
      (strL "@x") 0).2.1
    { uuid := 0, created := true, strong_ref := false } (by decide) (by decide) (by decide)

/-! ### Theorems for C3 (cardinality bounds of the write paths) -/

theorem le_length_datum_union (a b : Datum) : a.length ≤ (datum_union a b).length := by
  simp [datum_union]

theorem le_length_foldl_union (adds : List Datum) (old : Datum) :
    old.length ≤ (adds.foldl datum_union old).length := by
  induction adds generalizing old with
  | nil => simp
  | cons d ds ih =>
      calc old.length ≤ (datum_union old d).length := le_length_datum_union old d
        _ ≤ ((d :: ds).foldl datum_union old).length := by
            simp only [List.foldl_cons]
            exact ih (datum_union old d)

theorem datum_subtract_length_le (a b : Datum) :
    (datum_subtract a b).length ≤ a.length :=
  List.length_filter_le _ a

theorem foldl_subtract_length_le (rms : List Datum) (old : Datum) :
    ((rms.foldl datum_subtract old)).length ≤ old.length := by
  induction rms generalizing old with
  | nil => simp
  | cons d ds ih =>
      calc ((d :: ds).foldl datum_subtract old).length
          ≤ (datum_subtract old d).length := by
            simp only [List.foldl_cons]
            exact ih (datum_subtract old d)
        _ ≤ old.length := datum_subtract_length_le old d

/-- C3, counterexample.  The key form of `set` (`COL:KEY=VALUE`) has no
cardinality check: on a map column with `n_max = 1` whose current datum
already holds one pair under a different key, the union overlay it writes has
two pairs, exceeding `n_max` — so a successful `set` mutation can leave a
datum whose size violates the column type's bounds. -/
theorem set_key_form_violates_n_max :
    (set_column_key [(1, some 10)] 2 20).length = 2 ∧
    ({ key := .string, value := .string, n_min := 0, n_max := 1 } : OType).n_max = 1 ∧
    ([(1, some 10)] : Datum).length ≤
      ({ key := .string, value := .string, n_min := 0, n_max := 1 } : OType).n_max := by
  refine ⟨by decide, by decide, by decide⟩

/-- C3, amended.  `add` aborts before writing when the unioned result exceeds
`n_max`, `remove` aborts before writing when the subtracted result falls
below `n_min`, `clear` aborts on any column with `n_min > 0` and otherwise
writes the empty datum, and the whole-column form of `set` writes a datum
whose size the parse checked against `[n_min, n_max]`; so none of these
paths writes a datum violating the bounds (given the current datum
respected them).  The key form of `set`, however, writes the union overlay
without a cardinality check. -/
theorem mutation_cardinality_enforced (t : OType) (old d : Datum)
    (adds rms : List Datum) (col : Str) :
    (∀ res, cmd_add_write t old adds = .ok res →
        res.length ≤ t.n_max ∧ (t.n_min ≤ old.length → t.n_min ≤ res.length)) ∧
    (∀ res, cmd_remove_write t old rms = .ok res →
        t.n_min ≤ res.length ∧ (old.length ≤ t.n_max → res.length ≤ t.n_max)) ∧
    (∀ res, cmd_clear_write col t = .ok res → t.n_min = 0 ∧ res = []) ∧
    (0 < t.n_min → cmd_clear_write col t = .error (.cannotApplyClear col)) ∧
    (∀ res, set_column_whole t d = .ok res →
        t.n_min ≤ res.length ∧ res.length ≤ t.n_max) := by
  refine ⟨?_, ?_, ?_, ?_, ?_⟩
  · intro res h
    unfold cmd_add_write at h
    by_cases hb : (adds.foldl datum_union old).length > t.n_max
    · rw [if_pos hb] at h
      cases h
    · rw [if_neg hb] at h
      injection h with h
      subst h
      exact ⟨by omega, fun hm => le_trans hm (le_length_foldl_union adds old)⟩
  · intro res h
    unfold cmd_remove_write at h
    by_cases hb : (rms.foldl datum_subtract old).length < t.n_min
    · rw [if_pos hb] at h
      cases h
    · rw [if_neg hb] at h
      injection h with h
      subst h
      exact ⟨by omega, fun hm => le_trans (foldl_subtract_length_le rms old) hm⟩
  · intro res h
    unfold cmd_clear_write at h
    by_cases hb : t.n_min > 0
    · rw [if_pos hb] at h
      cases h
    · rw [if_neg hb] at h
      injection h with h
      exact ⟨by omega, h.symm⟩
  · intro hb
    unfold cmd_clear_write
    rw [if_pos hb]
  · intro res h
    unfold set_column_whole datum_from_string_checked at h
    by_cases hb : d.length < t.n_min ∨ d.length > t.n_max
    · rw [if_pos hb] at h
      cases h
    · rw [if_neg hb] at h
      injection h with h
      subst h
      omega

/-- C3, witness: a concrete `add` of one element to an empty set column with
`n_max = 2` succeeds and the written datum respects the bounds, by the
theorem applied at that input. -/
theorem mutation_cardinality_witness :
    ([(5, (none : Option Nat))] : Datum).length ≤
      ({ key := .integer, n_min := 0, n_max := 2 } : OType).n_max :=
  ((mutation_cardinality_enforced { key := .integer, n_min := 0, n_max := 2 }
      [] [] [[(5, none)]] [] []).1 [(5, none)] rfl).1

/-! ### Theorems for C4 (the row resolver) -/

theorem scan_named_rows_some_acc (tname nc rid : Str) (rows : List RowC) (a : RowC) :
    scan_named_rows tname nc rid rows (some a) =
      if rows.filter (fun r => decide (readStr r nc = [rid])) = [] then .ok (some a)
      else .error (.multipleRowsMatch tname rid) := by
  induction rows with
  | nil => simp [scan_named_rows]
  | cons r rs ih =>
      by_cases hr : readStr r nc = [rid]
      · rw [List.filter_cons_of_pos (by simp [hr])]
        simp [scan_named_rows, hr]
      · rw [List.filter_cons_of_neg (by simp [hr])]
        simp only [scan_named_rows, if_neg hr]
        exact ih

theorem scan_named_rows_zero (tname nc rid : Str) (rows : List RowC)
    (h : rows.filter (fun r => decide (readStr r nc = [rid])) = []) :
    scan_named_rows tname nc rid rows none = .ok none := by
  induction rows with
  | nil => rfl
  | cons r rs ih =>
      by_cases hr : readStr r nc = [rid]
      · rw [List.filter_cons_of_pos (by simp [hr])] at h
        cases h
      · rw [List.filter_cons_of_neg (by simp [hr])] at h
        simp only [scan_named_rows, if_neg hr]
        exact ih h

theorem scan_named_rows_unique (tname nc rid : Str) (rows : List RowC) (w : RowC)
    (h : rows.filter (fun r => decide (readStr r nc = [rid])) = [w]) :
    scan_named_rows tname nc rid rows none = .ok (some w) := by
  induction rows with
  | nil => cases h
  | cons r rs ih =>
      by_cases hr : readStr r nc = [rid]
      · rw [List.filter_cons_of_pos (by simp [hr])] at h
        injection h with h1 h2
        subst h1
        simp only [scan_named_rows, if_pos hr]
        rw [scan_named_rows_some_acc, if_pos h2]
      · rw [List.filter_cons_of_neg (by simp [hr])] at h
        simp only [scan_named_rows, if_neg hr]
        exact ih h

theorem scan_named_rows_multi (tname nc rid : Str) (rows : List RowC)
    (h : 2 ≤ rows.countP (fun r => decide (readStr r nc = [rid]))) :
    scan_named_rows tname nc rid rows none = .error (.multipleRowsMatch tname rid) := by
  induction rows with
  | nil => simp [List.countP_nil] at h
  | cons r rs ih =>
      by_cases hr : readStr r nc = [rid]
      · have h1 : 1 ≤ rs.countP (fun r => decide (readStr r nc = [rid])) := by
          rw [List.countP_cons, if_pos (by simp [hr])] at h
          omega
        have hf : rs.filter (fun r => decide (readStr r nc = [rid])) ≠ [] := by
          intro hnil
          rw [List.countP_eq_length_filter, hnil] at h1
          simp at h1
        simp only [scan_named_rows, if_pos hr]
        rw [scan_named_rows_some_acc, if_neg hf]
      · have h2 : 2 ≤ rs.countP (fun r => decide (readStr r nc = [rid])) := by
          rw [List.countP_cons, if_neg (by simp [hr])] at h
          omega
        simp only [scan_named_rows, if_neg hr]
        exact ih h2

theorem get_row_by_id_eq (idl : Idl) (table : CtlTableClassM) (id : CtlRowId)
    (rid : Str) :
    get_row_by_id idl table id rid =
      match row_id_referrer idl table id rid with
      | .error e => .error e
      | .ok none => .ok none
      | .ok (some r) => .ok (row_id_deref idl table id r) := by
  unfold get_row_by_id
  rcases row_id_referrer idl table id rid with e | o
  · rfl
  · cases o <;> rfl

/-- C4.  `get_row` tries the record token as a uuid lookup first; only when
that yields no row does it walk the row-id descriptors in declaration order.
A descriptor with a `name_column` matches rows of its table whose name datum
is the single string equal to the token — zero matches yield no match, two
or more are the fatal multiple-rows error; a descriptor without a
`name_column` matches only the literal `"."` and only when its table holds
exactly one row.  A set `uuid_column` dereferences the referrer's scalar
uuid column (empty datum: no match); an absent one makes the referrer the
result.  When nothing matches, `must_exist` decides between the fatal
no-row error and an empty result. -/
theorem get_row_resolution (idl : Idl) (table : CtlTableClassM) (rid : Str)
    (must : Bool) :
    (∀ u r, uuid_from_string rid = some u →
        get_row_for_uuid idl table.name u = some r →
        get_row idl table rid must = .ok (some r)) ∧
    (∀ id : CtlRowId, id.table = none → get_row_by_id idl table id rid = .ok none) ∧
    (∀ id : CtlRowId, ∀ t nc, id.table = some t → id.name_column = some nc →
        ((idlRows idl t).filter (fun r => decide (readStr r nc = [rid])) = [] →
            get_row_by_id idl table id rid = .ok none) ∧
        (2 ≤ (idlRows idl t).countP (fun r => decide (readStr r nc = [rid])) →
            get_row_by_id idl table id rid
              = .error (.multipleRowsMatch table.name rid)) ∧
        (∀ w, (idlRows idl t).filter (fun r => decide (readStr r nc = [rid])) = [w] →
            get_row_by_id idl table id rid = .ok (row_id_deref idl table id w))) ∧
    (∀ id : CtlRowId, ∀ t, id.table = some t → id.name_column = none →
        (rid ≠ strL "." → get_row_by_id idl table id rid = .ok none) ∧
        (∀ w, rid = strL "." → idlRows idl t = [w] →
            get_row_by_id idl table id rid = .ok (row_id_deref idl table id w)) ∧
        (rid = strL "." → (idlRows idl t).length ≠ 1 →
            get_row_by_id idl table id rid = .ok none)) ∧
    (∀ id : CtlRowId, ∀ w, id.uuid_column = none →
        row_id_deref idl table id w = some w) ∧
    (∀ id : CtlRowId, ∀ w uc, id.uuid_column = some uc → readUuid w uc = [] →
        row_id_deref idl table id w = none) ∧
    (∀ id : CtlRowId, ∀ w uc u, id.uuid_column = some uc → readUuid w uc = [u] →
        row_id_deref idl table id w = get_row_for_uuid idl table.name u) ∧
    (∀ id : CtlRowId, ∀ ids r, get_row_by_id idl table id rid = .ok (some r) →
        try_row_ids idl table rid (id :: ids) = .ok (some r)) ∧
    (∀ id : CtlRowId, ∀ ids, get_row_by_id idl table id rid = .ok none →
        try_row_ids idl table rid (id :: ids) = try_row_ids idl table rid ids) ∧
    ((match uuid_from_string rid with
      | some u => get_row_for_uuid idl table.name u
      | none => none) = none →
      try_row_ids idl table rid table.row_ids = .ok none →
      get_row idl table rid must
        = if must then .error (.noRow rid table.name) else .ok none) := by
  refine ⟨?_, ?_, ?_, ?_, ?_, ?_, ?_, ?_, ?_, ?_⟩
  · intro u r h1 h2
    unfold get_row
    rw [h1]
    simp only [h2]
    rfl
  · intro id h
    rw [get_row_by_id_eq]
    unfold row_id_referrer
    rw [h]
  · intro id t nc ht hnc
    have hre : row_id_referrer idl table id rid
        = scan_named_rows table.name nc rid (idlRows idl t) none := by
      unfold row_id_referrer
      rw [ht, hnc]
    refine ⟨?_, ?_, ?_⟩
    · intro hz
      rw [get_row_by_id_eq, hre, scan_named_rows_zero _ _ _ _ hz]
    · intro hm
      rw [get_row_by_id_eq, hre, scan_named_rows_multi _ _ _ _ hm]
    · intro w hw
      rw [get_row_by_id_eq, hre, scan_named_rows_unique _ _ _ _ _ hw]
  · intro id t ht hnc
    have hre : row_id_referrer idl table id rid
        = (if rid ≠ strL "." then .ok none
           else match idlRows idl t with
            | [r] => .ok (some r)
            | _ => .ok none) := by
      unfold row_id_referrer
      rw [ht, hnc]
    refine ⟨?_, ?_, ?_⟩
    · intro hne
      rw [get_row_by_id_eq, hre, if_pos hne]
    · intro w hdot hone
      rw [get_row_by_id_eq, hre, if_neg (by simp [hdot]), hone]
    · intro hdot hlen
      rw [get_row_by_id_eq, hre, if_neg (by simp [hdot])]
      rcases hrows : idlRows idl t with _ | ⟨r1, _ | ⟨r2, rest⟩⟩
      · rfl
      · rw [hrows] at hlen
        simp at hlen
      · rfl
  · intro id w h
    unfold row_id_deref
    rw [h]
  · intro id w uc h hu
    simp [row_id_deref, h, hu]
  · intro id w uc u h hu
    simp [row_id_deref, h, hu]
  · intro id ids r h
    conv_lhs => rw [try_row_ids]
    rw [h]
    rfl
  · intro id ids h
    conv_lhs => rw [try_row_ids]
    rw [h]
    rfl
  · intro h0 htry
    unfold get_row
    rcases hu : uuid_from_string rid with _ | u
    · rw [htry]
      cases must <;> rfl
    · rw [hu] at h0
      simp only at h0 ⊢
      rw [h0, htry]
      cases must <;> rfl

/-- C4, witness: in a cache where table `Port` holds the single row with
uuid 5, the record token `"5"` resolves through the uuid path, by the
theorem applied at that input. -/
theorem get_row_resolution_witness :
    get_row { tables := [(strL "Port", [{ uuid := 5 }])] } { name := strL "Port" }
        (strL "5") true
      = .ok (some { uuid := 5 }) :=
  (get_row_resolution { tables := [(strL "Port", [{ uuid := 5 }])] }
      { name := strL "Port" } (strL "5") true).1 5 { uuid := 5 }
    (by decide) (by decide)

/-! ### Theorems for C8 and C10 (`parse_column_key_value`) -/

theorem selOpLoop_len_ge_acc (p : Str) (ops : List Str) :
    ∀ i best best_len, best_len ≤ (selOpLoop p ops i best best_len).2 := by
  induction ops with
  | nil => intro i best best_len; simp [selOpLoop]
  | cons op rest ih =>
      intro i best best_len
      by_cases h : op.length > best_len ∧ p.take op.length = op ∧ op.length < p.length
      · simp only [selOpLoop, if_pos h]
        exact le_trans (le_of_lt h.1) (ih (i + 1) (i : Int) op.length)
      · simp only [selOpLoop, if_neg h]
        exact ih (i + 1) best best_len

theorem selOpLoop_maximal (p : Str) (ops : List Str) :
    ∀ i best best_len, ∀ op ∈ ops,
      (0 < op.length ∧ p.take op.length = op ∧ op.length < p.length) →
      op.length ≤ (selOpLoop p ops i best best_len).2 := by
  induction ops with
  | nil => intro i best best_len op hmem; cases hmem
  | cons op0 rest ih =>
      intro i best best_len op hmem hq
      rcases List.mem_cons.1 hmem with he | hmem'
      · subst he
        by_cases h : op.length > best_len ∧ p.take op.length = op ∧ op.length < p.length
        · simp only [selOpLoop, if_pos h]
          exact selOpLoop_len_ge_acc p rest (i + 1) (i : Int) op.length
        · have hle : op.length ≤ best_len := by
            rcases hq with ⟨h1, h2, h3⟩
            by_contra hc
            exact h ⟨by omega, h2, h3⟩
          simp only [selOpLoop, if_neg h]
          exact le_trans hle (selOpLoop_len_ge_acc p rest (i + 1) best best_len)
      · by_cases h : op0.length > best_len ∧ p.take op0.length = op0 ∧ op0.length < p.length
        · simp only [selOpLoop, if_pos h]
          exact ih (i + 1) (i : Int) op0.length op hmem' hq
        · simp only [selOpLoop, if_neg h]
          exact ih (i + 1) best best_len op hmem' hq

theorem selOpLoop_no_qualify (p : Str) (ops : List Str) :
    ∀ i best best_len,
      (∀ op ∈ ops, ¬(best_len < op.length ∧ p.take op.length = op ∧ op.length < p.length)) →
      selOpLoop p ops i best best_len = (best, best_len) := by
  induction ops with
  | nil => intro i best best_len _; rfl
  | cons op0 rest ih =>
      intro i best best_len h
      have h0 := h op0 (by simp)
      simp only [selOpLoop, if_neg h0]
      exact ih (i + 1) best best_len (fun op hmem => h op (by simp [hmem]))

theorem selOpLoop_index (p : Str) (full : List Str) :
    ∀ ops i best best_len, full.drop i = ops →
      (best = -1 ∨ ∃ (j : Nat) (op : Str), best = (j : Int) ∧ full[j]? = some op ∧
        0 < op.length ∧ p.take op.length = op ∧ op.length < p.length ∧
        op.length = best_len) →
      ((selOpLoop p ops i best best_len).1 = -1 ∨
        ∃ (j : Nat) (op : Str), (selOpLoop p ops i best best_len).1 = (j : Int) ∧
          full[j]? = some op ∧
          0 < op.length ∧ p.take op.length = op ∧ op.length < p.length ∧
          op.length = (selOpLoop p ops i best best_len).2) := by
  intro ops
  induction ops with
  | nil => intro i best best_len _ hacc; exact hacc
  | cons op0 rest ih =>
      intro i best best_len hdrop hacc
      have hget : full[i]? = some op0 := by
        have h0 : (full.drop i)[0]? = some op0 := by rw [hdrop]; simp
        rw [List.getElem?_drop] at h0
        simpa using h0
      have hrest : full.drop (i + 1) = rest := by
        have : full.drop (i + 1) = (full.drop i).drop 1 := by
          rw [List.drop_drop, Nat.add_comm]
        rw [this, hdrop]
        rfl
      by_cases h : op0.length > best_len ∧ p.take op0.length = op0 ∧ op0.length < p.length
      · simp only [selOpLoop, if_pos h]
        refine ih (i + 1) (i : Int) op0.length hrest (Or.inr ?_)
        exact ⟨i, op0, rfl, hget, by omega, h.2.1, h.2.2, rfl⟩
      · simp only [selOpLoop, if_neg h]
        exact ih (i + 1) best best_len hrest hacc

/-- C8.  With a value wanted, the operator selected by
`parse_column_key_value` is the longest among the allowed operators
(defaulting to `["="]` when the caller supplies none) that is a prefix of
the input remaining after the column name and optional key and that is
followed by at least one character; the value is the entire remainder after
that operator; and when no allowed operator qualifies, parsing fails with
the missing-operator error carrying every allowed operator. -/
theorem operator_selection_longest (ops : List Str) (p arg tn : Str)
    (cols : List Str) (mode : PMode) (allowed : Option (List Str))
    (cn col p1 : Str) :
    ((∀ op ∈ ops, ¬(0 < op.length ∧ p.take op.length = op ∧ op.length < p.length)) →
        selectOperator ops p = (-1, 0)) ∧
    (∀ op ∈ ops, (0 < op.length ∧ p.take op.length = op ∧ op.length < p.length) →
        op.length ≤ (selectOperator ops p).2) ∧
    ((selectOperator ops p).1 ≠ -1 →
        ∃ (j : Nat) (op : Str), (selectOperator ops p).1 = (j : Int) ∧
          ops[j]? = some op ∧
          0 < op.length ∧ p.take op.length = op ∧ op.length < p.length ∧
          op.length = (selectOperator ops p).2) ∧
    (mode ≠ .plain →
      ovsdb_token_parse arg arg = .ok (cn, p1) → cn ≠ [] →
      get_column tn cols cn = .ok col → p1.head? ≠ some ':' →
      ((selectOperator (allowed.getD [strL "="]) p1).1 < 0 →
          parse_column_key_value arg tn cols mode allowed
            = (some (.missingOperator arg (allowed.getD [strL "="])),
               pckv_error_out mode)) ∧
      (0 ≤ (selectOperator (allowed.getD [strL "="]) p1).1 →
          parse_column_key_value arg tn cols mode allowed
            = (none, { column := some col, key := none,
                       op := if mode = .withValueAndOp
                             then some (selectOperator (allowed.getD [strL "="]) p1).1
                             else none,
                       value := some
                         (p1.drop (selectOperator (allowed.getD [strL "="]) p1).2) }))) := by
  refine ⟨?_, ?_, ?_, ?_⟩
  · intro h
    unfold selectOperator
    exact selOpLoop_no_qualify p ops 0 (-1) 0 (fun op hm => h op hm)
  · intro op hm hq
    exact selOpLoop_maximal p ops 0 (-1) 0 op hm hq
  · intro hne
    have h := selOpLoop_index p ops ops 0 (-1) 0 (by simp) (Or.inl rfl)
    rcases h with h | h
    · exact absurd h hne
    · exact h
  · intro hmode htok hcn hcol hkey
    have hparse : parse_column_key_value arg tn cols mode allowed =
        (match mode with
         | .plain =>
             if p1 ≠ [] then (some (.trailingGarbage arg p1), pckv_error_out mode)
             else (none, { column := some col, key := none })
         | _ =>
             let ops1 := allowed.getD [strL "="]
             let sel := selectOperator ops1 p1
             if sel.1 < 0 then (some (.missingOperator arg ops1), pckv_error_out mode)
             else
               (none, { column := some col, key := none,
                        op := if mode = .withValueAndOp then some sel.1 else none,
                        value := some (p1.drop sel.2) })) := by
      unfold parse_column_key_value
      rw [htok]
      simp only [if_neg (by simpa using hcn)]
      rw [hcol]
      simp only [if_neg hkey]
    cases mode with
    | plain => exact absurd rfl hmode
    | withValue =>
        constructor
        · intro hlt
          rw [hparse]
          simp only
          rw [if_pos hlt]
        · intro hge
          rw [hparse]
          simp only
          rw [if_neg (by omega)]
    | withValueAndOp =>
        constructor
        · intro hlt
          rw [hparse]
          simp only
          rw [if_pos hlt]
        · intro hge
          rw [hparse]
          simp only
          rw [if_neg (by omega)]

/-- C8, witness: for the condition argument `tag>5` against a table with the
single column `tag` and the twelve relational operators allowed, the parser
selects `>` (index 3) rather than any longer operator, and the value is
`5` — by the theorem applied at that input. -/
theorem operator_selection_witness :
    parse_column_key_value (strL "tag>5") (strL "Port") [strL "tag"]
        .withValueAndOp
        (some [strL "=", strL "!=", strL "<", strL ">", strL "<=", strL ">=",
               strL "{=}", strL "{!=}", strL "{<}", strL "{>}", strL "{<=}",
               strL "{>=}"])
      = (none, { column := some (strL "tag"), key := none,
                 op := some 3, value := some (strL "5") }) := by
  have h := (operator_selection_longest
      [strL "=", strL "!=", strL "<", strL ">", strL "<=", strL ">=",
       strL "{=}", strL "{!=}", strL "{<}", strL "{>}", strL "{<=}",
       strL "{>=}"] (strL ">5") (strL "tag>5") (strL "Port") [strL "tag"]
      .withValueAndOp
      (some [strL "=", strL "!=", strL "<", strL ">", strL "<=", strL ">=",
             strL "{=}", strL "{!=}", strL "{<}", strL "{>}", strL "{<=}",
             strL "{>=}"])
      (strL "tag") (strL "tag") (strL ">5")).2.2.2
    (by decide) (by rfl) (by decide) (by rfl) (by decide)
  have h2 := h.2 (by decide)
  rw [h2]
  decide

/-- C10.  Whenever `parse_column_key_value` returns an error, the
out-parameters hold no partial results: the column and key slots are NULL,
the value slot is NULL when a value was requested, and the operator slot is
-1 when an operator index was requested. -/
theorem pckv_outputs_cleared_on_error (arg tn : Str) (cols : List Str)
    (mode : PMode) (allowed : Option (List Str)) (e : CtlErr) (out : PCKVOut)
    (h : parse_column_key_value arg tn cols mode allowed = (some e, out)) :
    out.column = none ∧ out.key = none ∧ out.value = none ∧
      (mode = .withValueAndOp → out.op = some (-1)) ∧
      (mode ≠ .withValueAndOp → out.op = none) := by
  have hout : out = pckv_error_out mode := by
    unfold parse_column_key_value at h
    repeat' (first | split at h | simp only at h)
    all_goals
      first
        | (injection h with h1 h2; exact h2.symm)
        | (injection h with h1 h2; cases h1)
  subst hout
  unfold pckv_error_out
  refine ⟨rfl, rfl, rfl, ?_, ?_⟩
  · intro hm
    rw [if_pos hm]
  · intro hm
    rw [if_neg hm]

/-- C10, witness: parsing an argument whose column is unknown fails and
leaves the cleared out-parameters, by the theorem applied at that input. -/
theorem pckv_outputs_cleared_witness :
    (pckv_error_out PMode.withValueAndOp).column = none ∧
    (pckv_error_out PMode.withValueAndOp).op = some (-1) := by
  have h := pckv_outputs_cleared_on_error (strL "x") (strL "T") [] .withValueAndOp
    none (.unknownColumn (strL "T") (strL "x")) (pckv_error_out .withValueAndOp)
    (by decide)
  exact ⟨h.1, h.2.2.2.1 rfl⟩

/-! ### Theorems for C5 (key-qualified condition evaluation) -/

/-- C5, counterexample.  The claim says the key-qualified comparison uses
the column's declared type with (only) `n_max` widened to unbounded; the
code additionally re-keys that type — the key atomic type becomes the map's
value type and the value type is cleared — so for a map whose key and value
atomic types differ the type actually used is not the widened declared
type. -/
theorem condition_comparison_type_not_just_widened :
    condition_comparison_type
        { key := AtomTy.string, value := AtomTy.integer, n_min := 0, n_max := 1 }
      ≠ widened_type
        { key := AtomTy.string, value := AtomTy.integer, n_min := 0, n_max := 1 } := by
  decide

/-- C5, amended.  For `COLUMN:KEY OP VALUE`: when `KEY` is absent from the
row's map datum and `OP` is one of the six non-set operators, the condition
is `false` without comparing; when `KEY` is absent and `OP` is a set
operator, the empty datum is compared; when `KEY` is present, the singleton
datum holding the stored value is compared — and in every case the
comparison type is the column's declared type with `n_max` widened to
unbounded **and** re-keyed to the map's value type (value type void). -/
theorem condition_key_evaluation (t : OType) (hd : List Nat × List Nat)
    (k : Nat) (b : List Nat) (op : Relop) :
    (is_condition_satisfied t hd (some k) b op = condition_key_check t hd k b op) ∧
    (datum_get_value hd k = none → is_set_operator op = false →
        condition_key_check t hd k b op = false) ∧
    (datum_get_value hd k = none → is_set_operator op = true →
        condition_key_check t hd k b op
          = evaluate_relop [] b (condition_comparison_type t) op) ∧
    (∀ v, datum_get_value hd k = some v →
        condition_key_check t hd k b op
          = evaluate_relop [v] b (condition_comparison_type t) op) ∧
    (condition_comparison_type t
      = { key := t.value, value := AtomTy.void, n_min := t.n_min,
          n_max := UINT_MAX }) := by
  refine ⟨rfl, ?_, ?_, ?_, rfl⟩
  · intro h1 h2
    simp [condition_key_check, h1, h2]
  · intro h1 h2
    simp [condition_key_check, h1, h2]
  · intro v hv
    simp [condition_key_check, hv]

/-- C5, witness: a missing key under `=` short-circuits to `false`, by the
theorem applied at a concrete map datum. -/
theorem condition_key_evaluation_witness :
    condition_key_check
        { key := AtomTy.string, value := AtomTy.integer, n_min := 0, n_max := 1 }
        ([], []) 1 [5] .eq = false :=
  (condition_key_evaluation
      { key := AtomTy.string, value := AtomTy.integer, n_min := 0, n_max := 1 }
      ([], []) 1 [5] .eq).2.1 (by decide) (by decide)

/-! ### Theorems for C9 (`parse_command` option validation) -/

theorem strstr_go_some (needle hay : Str) :
    ∀ i j, strstr_go needle hay i = some j →
      i ≤ j ∧ needle.isPrefixOf (hay.drop (j - i)) = true ∧
        ∀ k, k < j - i → needle.isPrefixOf (hay.drop k) = false := by
  induction hay with
  | nil =>
      intro i j h
      unfold strstr_go at h
      by_cases hp : needle.isPrefixOf [] = true
      · rw [if_pos hp] at h
        injection h with h
        subst h
        exact ⟨le_refl i, by simpa [Nat.sub_self] using hp,
          fun k hk => absurd hk (by omega)⟩
      · rw [if_neg hp] at h
        cases h
  | cons c rest ih =>
      intro i j h
      unfold strstr_go at h
      by_cases hp : needle.isPrefixOf (c :: rest) = true
      · rw [if_pos hp] at h
        injection h with h
        subst h
        exact ⟨le_refl i, by simpa [Nat.sub_self] using hp,
          fun k hk => absurd hk (by omega)⟩
      · rw [if_neg hp] at h
        obtain ⟨h1, h2, h3⟩ := ih (i + 1) j h
        have hpf : needle.isPrefixOf (c :: rest) = false := Bool.eq_false_iff.mpr hp
        refine ⟨by omega, ?_, ?_⟩
        · have he : j - i = (j - (i + 1)) + 1 := by omega
          rw [he, List.drop_succ_cons]
          exact h2
        · intro k hk
          cases k with
          | zero => exact hpf
          | succ k1 =>
              rw [List.drop_succ_cons]
              exact h3 k1 (by omega)

theorem strstr_go_none (needle hay : Str) :
    ∀ i, strstr_go needle hay i = none →
      ∀ k, needle.isPrefixOf (hay.drop k) = false := by
  induction hay with
  | nil =>
      intro i h k
      unfold strstr_go at h
      by_cases hp : needle.isPrefixOf [] = true
      · rw [if_pos hp] at h
        cases h
      · rw [List.drop_nil]
        exact Bool.eq_false_iff.mpr hp
  | cons c rest ih =>
      intro i h k
      unfold strstr_go at h
      by_cases hp : needle.isPrefixOf (c :: rest) = true
      · rw [if_pos hp] at h
        cases h
      · rw [if_neg hp] at h
        cases k with
        | zero => exact Bool.eq_false_iff.mpr hp
        | succ k1 =>
            rw [List.drop_succ_cons]
            exact ih (i + 1) h k1

theorem validate_option_iff (cmd spec name : Str) (hasValue : Bool) :
    validate_option cmd spec name hasValue = .ok () ↔
      ∃ e, option_end_char spec name = some e ∧
        (e = some '=' ∨ e = some ',' ∨ e = some ' ' ∨ e = none) ∧
        ((e = some '=') ↔ hasValue = true) := by
  unfold validate_option
  rcases he : option_end_char spec name with _ | e1
  · simp
  · simp only
    constructor
    · intro h
      by_cases hbad : e1 ≠ some '=' ∧ e1 ≠ some ',' ∧ e1 ≠ some ' ' ∧ e1 ≠ none
      · rw [if_pos hbad] at h
        cases h
      · rw [if_neg hbad] at h
        by_cases hne : ((decide (e1 = some '=')) != hasValue) = true
        · rw [if_pos hne] at h
          split at h <;> cases h
        · rw [if_neg hne] at h
          have hb : (decide (e1 = some '=') != hasValue) = false :=
            Bool.eq_false_iff.mpr hne
          have hde : decide (e1 = some '=') = hasValue := by
            simpa [bne_eq_false_iff_eq] using hb
          refine ⟨e1, rfl, by tauto, ?_⟩
          rw [← hde]
          exact decide_eq_true_iff.symm
    · rintro ⟨e, he2, hgood, hiff⟩
      injection he2 with he2
      subst he2
      have hnbad : ¬(e1 ≠ some '=' ∧ e1 ≠ some ',' ∧ e1 ≠ some ' ' ∧ e1 ≠ none) := by
        tauto
      rw [if_neg hnbad]
      have hde : decide (e1 = some '=') = hasValue := by
        cases hasValue with
        | true => simp [hiff.mpr rfl]
        | false =>
            have hne2 : ¬(e1 = some '=') := fun hc => by
              have := hiff.mp hc
              cases this
            simp [hne2]
      rw [if_neg (by simp [hde])]

theorem validate_options_iff (cmd spec : Str) (opts : List (Str × Option Str)) :
    validate_options cmd spec opts = .ok () ↔
      ∀ p ∈ opts, validate_option cmd spec p.1 p.2.isSome = .ok () := by
  induction opts with
  | nil => simp [validate_options]
  | cons p ps ih =>
      rcases p with ⟨name, val⟩
      constructor
      · intro h
        unfold validate_options at h
        rcases hv : validate_option cmd spec name val.isSome with e | u
        · rw [hv] at h
          cases h
        · rcases u
          rw [hv] at h
          simp only [bind, Except.bind] at h
          intro q hq
          rcases List.mem_cons.1 hq with hq1 | hq1
          · subst hq1
            exact hv
          · exact (ih.1 h) q hq1
      · intro h
        unfold validate_options
        rw [show validate_option cmd spec name val.isSome = .ok ()
          from h (name, val) (by simp)]
        simp only [bind, Except.bind]
        exact ih.2 (fun q hq => h q (by simp [hq]))

/-- C9, counterexample.  With `options_spec = "--id=,--i"` and the option
token `--i` (no value), the name `--i` does occur in the spec followed by
the end of the string — so the claim accepts it — but the code checks only
the **first** occurrence (C `strstr`), which is the prefix of `--id=` and is
followed by `d`, so `parse_command` rejects the option as unknown. -/
theorem option_validation_any_occurrence_fails :
    claimed_option_accepted (strL "--id=,--i") (strL "--i") false = true ∧
    parse_command [strL "--i", strL "foo"] []
        [{ name := strL "foo", min_args := 0, max_args := 0,
           options := strL "--id=,--i" }]
      = .error (.noSuchOption (strL "foo") (strL "--i")) := by
  refine ⟨by decide, by rfl⟩

/-- C9, amended.  `parse_command` accepts an option token on a verb exactly
when the character after the **first** occurrence of the option's name in
the verb's options string is `=`, `,`, a space, or the end of the string
(no occurrence is a fatal unknown-option error); when that character is `=`
the token must carry a value and otherwise must not (either mismatch is
fatal); and giving the same option key twice to one command is fatal. -/
theorem option_validation_spec (cmd spec name : Str) (hasValue : Bool)
    (argv : List Str) (lopts : List (Str × Option Str))
    (registry : List CtlCommandSyntaxM) :
    (validate_option cmd spec name hasValue = .ok () ↔
      ∃ e, option_end_char spec name = some e ∧
        (e = some '=' ∨ e = some ',' ∨ e = some ' ' ∨ e = none) ∧
        ((e = some '=') ↔ hasValue = true)) ∧
    (∀ i, strstr_index spec name = some i →
        name.isPrefixOf (spec.drop i) = true ∧
        ∀ k, k < i → name.isPrefixOf (spec.drop k) = false) ∧
    (strstr_index spec name = none →
        ∀ k, name.isPrefixOf (spec.drop k) = false) ∧
    (∀ opts, validate_options cmd spec opts = .ok () ↔
        ∀ p ∈ opts, validate_option cmd spec p.1 p.2.isSome = .ok ()) ∧
    (∀ (a : Str) (rest : List Str) (acc : List (Str × Option Str)),
        a.head? = some '-' →
        (acc.lookup (split_option_token a).1).isSome = true →
        collect_options (a :: rest) acc = .error (.duplicateOption a)) ∧
    (∀ e, collect_options argv lopts = .error e →
        parse_command argv lopts registry = .error e) ∧
    (∀ opts cmdname args p e,
        collect_options argv lopts = .ok (opts, cmdname :: args) →
        registry.find? (fun q => q.name == cmdname) = some p →
        validate_options cmdname p.options opts = .error e →
        parse_command argv lopts registry = .error e) := by
  refine ⟨validate_option_iff cmd spec name hasValue, ?_, ?_,
    fun opts => validate_options_iff cmd spec opts, ?_, ?_, ?_⟩
  · intro i h
    obtain ⟨h1, h2, h3⟩ := strstr_go_some name spec 0 i h
    exact ⟨by simpa using h2, fun k hk => h3 k (by omega)⟩
  · intro h k
    exact strstr_go_none name spec 0 h k
  · intro a rest acc hdash hdup
    unfold collect_options
    rw [if_neg (by simp [hdash])]
    simp [hdup]
  · intro e h
    unfold parse_command
    rw [h]
    rfl
  · intro opts cmdname args p e hc hf hv
    unfold parse_command
    rw [hc]
    simp only [bind, Except.bind]
    rw [hf]
    simp only [bind, Except.bind]
    rw [hv]

/-- C9, witness: `--id=value` on the `get` verb (options
`--if-exists,--id=`) validates, by the theorem's acceptance criterion at a
concrete spec. -/
theorem option_validation_witness :
    validate_option (strL "get") (strL "--if-exists,--id=") (strL "--id") true
      = .ok () :=
  (option_validation_spec (strL "get") (strL "--if-exists,--id=") (strL "--id")
      true [] [] []).1.mpr
    ⟨some '=', by decide, Or.inl rfl, by simp⟩

/-! ### Theorems for C7 (the show renderer's `shown` set) -/

theorem foldl_snd_preserved {α β γ : Type} (f : List γ × β → α → List γ × β)
    (hf : ∀ acc a, (f acc a).2 = acc.2) :
    ∀ (l : List α) (init : List γ × β), (l.foldl f init).2 = init.2 := by
  intro l
  induction l with
  | nil => intro init; rfl
  | cons a as ih =>
      intro init
      rw [List.foldl_cons, ih (f init a), hf init a]

theorem show_ref_step_snd (env : ShowEnv)
    (rec : SRow → Nat → List Str → List ShowLine × List Str)
    (ref : Str) (level : Nat)
    (hrec : ∀ r l sh, (rec r l sh).2 = sh) :
    ∀ acc2 u, (show_ref_step env rec ref level acc2 u).2 = acc2.2 := by
  intro acc2 u
  unfold show_ref_step
  split
  · exact hrec _ (level + 1) acc2.2
  · rfl

theorem show_col_step_snd (env : ShowEnv)
    (rec : SRow → Nat → List Str → List ShowLine × List Str)
    (row : SRow) (level : Nat)
    (hrec : ∀ r l sh, (rec r l sh).2 = sh) :
    ∀ acc col, (show_col_step env rec row level acc col).2 = acc.2 := by
  intro acc col
  unfold show_col_step
  rcases col with ⟨cname, cty⟩
  cases cty with
  | uuidRef ref =>
      simp only
      split
      · exact foldl_snd_preserved _
          (show_ref_step_snd env rec ref level hrec) _ _
      · split
        · rfl
        · rfl
  | mapUuidRef ref =>
      simp only
      split
      · split
        · rfl
        · split
          · rfl
          · rfl
      · split
        · rfl
        · rfl
  | plain =>
      simp only
      split
      · rfl
      · rfl

theorem showRowAux_restores (env : ShowEnv) :
    ∀ fuel row level shown, (showRowAux env fuel row level shown).2 = shown := by
  intro fuel
  induction fuel with
  | zero => intro row level shown; rfl
  | succ f ih =>
      intro row level shown
      unfold showRowAux
      rcases cmd_show_find_table_by_row env row with _ | s
      · rfl
      · simp only
        by_cases hmem : s.table ∈ shown
        · rw [if_pos hmem]
        · rw [if_neg hmem]
          simp only
          rw [foldl_snd_preserved _
            (show_col_step_snd env _ row level (fun r l sh => ih r l sh)),
            List.erase_cons_head]

theorem countP_le_of_imp {α : Type} (p q : α → Bool)
    (h : ∀ a, p a = true → q a = true) :
    ∀ l : List α, l.countP p ≤ l.countP q := by
  intro l
  induction l with
  | nil => simp
  | cons b bs ih =>
      rw [List.countP_cons, List.countP_cons]
      by_cases hb : p b = true
      · rw [if_pos hb, if_pos (h b hb)]
        omega
      · rw [if_neg hb]
        by_cases hq : q b = true
        · rw [if_pos hq]
          omega
        · rw [if_neg hq]
          omega

theorem countP_contains_lt (x : Str) (shown : List Str) (hnot : x ∉ shown) :
    ∀ L : List Str, x ∈ L →
      L.countP (fun t => !((x :: shown).contains t))
        < L.countP (fun t => !(shown.contains t)) := by
  have himp : ∀ a : Str, (!((x :: shown).contains a)) = true →
      (!(shown.contains a)) = true := by
    intro a ha
    simp only [List.contains_cons, Bool.not_eq_true', Bool.or_eq_false_iff] at ha
    simp only [Bool.not_eq_true']
    exact ha.2
  intro L
  induction L with
  | nil => intro hx; cases hx
  | cons b bs ih =>
      intro hx
      rw [List.countP_cons, List.countP_cons]
      by_cases hbx : b = x
      · subst hbx
        have h1 : ¬((!((b :: shown).contains b)) = true) := by simp
        have h2 : (!(shown.contains b)) = true := by simpa using hnot
        rw [if_neg h1, if_pos h2]
        have hmono := countP_le_of_imp _ _ himp bs
        omega
      · have hmem : x ∈ bs := by
          rcases List.mem_cons.1 hx with h | h
          · exact absurd h.symm hbx
          · exact h
        have heq : (!((x :: shown).contains b)) = (!(shown.contains b)) := by
          have hc : ((x :: shown).contains b) = (shown.contains b) := by
            simp [List.contains_cons, hbx]
          rw [hc]
        have hlt := ih hmem
        by_cases hp : (!(shown.contains b)) = true
        · rw [if_pos (heq ▸ hp), if_pos hp]
          omega
        · rw [if_neg (heq ▸ hp), if_neg hp]
          omega

theorem show_measure_eq_countP (env : ShowEnv) (shown : List Str) :
    show_measure env shown
      = (env.showTables.map (fun s => s.table)).countP
          (fun t => !(shown.contains t)) := by
  unfold show_measure
  rw [List.countP_eq_length_filter]

theorem show_measure_cons_lt (env : ShowEnv) (s : ShowTableSpec)
    (shown : List Str) (hmem : s ∈ env.showTables) (hnot : s.table ∉ shown) :
    show_measure env (s.table :: shown) < show_measure env shown := by
  rw [show_measure_eq_countP, show_measure_eq_countP]
  exact countP_contains_lt s.table shown hnot _ (List.mem_map.2 ⟨s, hmem, rfl⟩)

theorem show_measure_le (env : ShowEnv) (shown : List Str) :
    show_measure env shown ≤ env.showTables.length := by
  unfold show_measure
  exact le_trans (List.length_filter_le _ _) (by simp)

theorem show_ref_fold_congr (env : ShowEnv)
    (rec1 rec2 : SRow → Nat → List Str → List ShowLine × List Str)
    (ref : Str) (level : Nat) (sh : List Str)
    (h1 : ∀ r l s, (rec1 r l s).2 = s)
    (heq : ∀ r l, rec1 r l sh = rec2 r l sh) :
    ∀ (us : List Nat) (acc : List ShowLine × List Str), acc.2 = sh →
      us.foldl (show_ref_step env rec1 ref level) acc
        = us.foldl (show_ref_step env rec2 ref level) acc := by
  intro us
  induction us with
  | nil => intro acc _; rfl
  | cons u us1 ih =>
      intro acc hacc
      rw [List.foldl_cons, List.foldl_cons]
      have hstep : show_ref_step env rec1 ref level acc u
          = show_ref_step env rec2 ref level acc u := by
        unfold show_ref_step
        cases henv : envRowForUuid env ref u with
        | none => rfl
        | some r2 =>
            simp only
            rw [hacc, heq r2 (level + 1)]
      rw [hstep]
      have hsnd : (show_ref_step env rec2 ref level acc u).2 = sh := by
        rw [← hstep]
        exact (show_ref_step_snd env rec1 ref level h1 acc u).trans hacc
      exact ih _ hsnd

theorem show_col_fold_congr (env : ShowEnv)
    (rec1 rec2 : SRow → Nat → List Str → List ShowLine × List Str)
    (row : SRow) (level : Nat) (sh : List Str)
    (h1 : ∀ r l s, (rec1 r l s).2 = s)
    (heq : ∀ r l, rec1 r l sh = rec2 r l sh) :
    ∀ (cols : List ShowCol) (acc : List ShowLine × List Str), acc.2 = sh →
      cols.foldl (show_col_step env rec1 row level) acc
        = cols.foldl (show_col_step env rec2 row level) acc := by
  intro cols
  induction cols with
  | nil => intro acc _; rfl
  | cons col cols1 ih =>
      intro acc hacc
      rw [List.foldl_cons, List.foldl_cons]
      have hstep : show_col_step env rec1 row level acc col
          = show_col_step env rec2 row level acc col := by
        unfold show_col_step
        rcases col with ⟨cname, cty⟩
        cases cty with
        | uuidRef ref =>
            simp only
            split
            · exact show_ref_fold_congr env rec1 rec2 ref level sh h1 heq _ acc hacc
            · rfl
        | mapUuidRef ref => rfl
        | plain => rfl
      rw [hstep]
      have hsnd : (show_col_step env rec2 row level acc col).2 = sh := by
        rw [← hstep]
        exact (show_col_step_snd env rec1 row level h1 acc col).trans hacc
      exact ih _ hsnd

theorem showRowAux_stable (env : ShowEnv) :
    ∀ n f1 f2 row level shown,
      show_measure env shown < f1 → show_measure env shown < f2 →
      show_measure env shown ≤ n →
      showRowAux env f1 row level shown = showRowAux env f2 row level shown := by
  intro n
  induction n with
  | zero =>
      intro f1 f2 row level shown hf1 hf2 hn
      rcases f1 with _ | g1
      · omega
      rcases f2 with _ | g2
      · omega
      unfold showRowAux
      rcases hs : cmd_show_find_table_by_row env row with _ | s
      · rfl
      · simp only
        have hmem : s.table ∈ shown := by
          by_contra hc
          have hlt := show_measure_cons_lt env s shown
            (List.mem_of_find?_eq_some hs) hc
          omega
        rw [if_pos hmem, if_pos hmem]
  | succ n ih =>
      intro f1 f2 row level shown hf1 hf2 hn
      rcases f1 with _ | g1
      · omega
      rcases f2 with _ | g2
      · omega
      unfold showRowAux
      rcases hs : cmd_show_find_table_by_row env row with _ | s
      · rfl
      · simp only
        by_cases hmem : s.table ∈ shown
        · rw [if_pos hmem, if_pos hmem]
        · rw [if_neg hmem, if_neg hmem]
          have hsmem : s ∈ env.showTables := List.mem_of_find?_eq_some hs
          have hlt := show_measure_cons_lt env s shown hsmem hmem
          have hcongr := show_col_fold_congr env
            (fun r l sh => showRowAux env g1 r l sh)
            (fun r l sh => showRowAux env g2 r l sh)
            row level (s.table :: shown)
            (fun r l sh2 => showRowAux_restores env g1 r l sh2)
            (fun r l => ih g1 g2 r l (s.table :: shown)
              (by omega) (by omega) (by omega))
            s.columns ([show_row_header env row level], s.table :: shown) rfl
          rw [hcongr]

/-- C7.  The `shown` set of the show renderer is path-local: `cmd_show_row`
returns its `shown` set exactly as it received it (the row's table name is
added before the configured columns are expanded and removed again before
returning); a row whose table name is already on the current path produces
only its header line and is not expanded; the result is independent of the
fuel bound once it exceeds the path measure, so the renderer terminates —
in particular on the cyclic two-table schema `A→B, B→A`, which it renders
as three header lines — and `shown` is empty after the traversal of all
root rows completes. -/
theorem show_shown_path_local (env : ShowEnv) (row : SRow) (level : Nat)
    (shown : List Str) :
    ((cmd_show_row env row level shown).2 = shown) ∧
    (∀ s, cmd_show_find_table_by_row env row = some s → s.table ∈ shown →
        cmd_show_row env row level shown
          = ([show_row_header env row level], shown)) ∧
    (∀ f1 f2, show_measure env shown < f1 → show_measure env shown < f2 →
        showRowAux env f1 row level shown = showRowAux env f2 row level shown) ∧
    (∀ f, show_measure env shown < f →
        cmd_show_row env row level shown = showRowAux env f row level shown) ∧
    ((cmd_show env).2 = []) ∧
    (cmd_show cyclicShowEnv
      = ([.rowHeaderUuid 0 1, .rowHeaderUuid 1 2, .rowHeaderUuid 2 1], [])) := by
  refine ⟨?_, ?_, ?_, ?_, ?_, ?_⟩
  · exact showRowAux_restores env _ row level shown
  · intro s hs hmem
    unfold cmd_show_row
    unfold showRowAux
    rw [hs]
    simp only
    rw [if_pos hmem]
  · intro f1 f2 h1 h2
    exact showRowAux_stable env (show_measure env shown) f1 f2 row level shown
      h1 h2 (le_refl _)
  · intro f hf
    unfold cmd_show_row
    exact showRowAux_stable env (show_measure env shown)
      (env.showTables.length + 1) f row level shown
      (by have := show_measure_le env shown; omega) hf (le_refl _)
  · unfold cmd_show
    rcases env.showTables.head? with _ | s0
    · rfl
    · simp only
      exact foldl_snd_preserved
        (fun acc row =>
          (acc.1 ++ (cmd_show_row env row 0 acc.2).1, (cmd_show_row env row 0 acc.2).2))
        (fun acc r =>
          showRowAux_restores env (env.showTables.length + 1) r 0 acc.2) _ _
  · decide

/-- C7, witness: on the cyclic schema, re-entering table `A` while `A` is
already on the path prints the header only and leaves `shown` unchanged, by
the theorem applied at that input. -/
theorem show_shown_path_local_witness :
    cmd_show_row cyclicShowEnv
        { uuid := 1, table := strL "A", data := [(strL "ref", ([2], []))] }
        2 [strL "A"]
      = ([show_row_header cyclicShowEnv
            { uuid := 1, table := strL "A", data := [(strL "ref", ([2], []))] } 2],
         [strL "A"]) :=
  (show_shown_path_local cyclicShowEnv
      { uuid := 1, table := strL "A", data := [(strL "ref", ([2], []))] }
      2 [strL "A"]).2.1
    { table := strL "A",
      columns := [{ name := strL "ref", ty := .uuidRef (strL "B") }] }
    (by rfl) (by decide)

end DbCtl
